import Mathlib

/-!
Shallow embedding of pachyderm's fileset compaction core
(`src/internal/storage/fileset/compaction.go`).

The metadata store is modelled as an append-only list of `Metadata`
values; a fileset reference (`ID`) is the index of its metadata in that
list, so every operation that creates a new fileset appends one entry
and returns the previous length as the fresh reference.  Primitive
layers carry their `SizeBytes` and, to give the distributed/sequential
equivalence claims content, a list of (path, value) entries standing
for the path-indexed body.

External capabilities (`Flatten`, `Merge`, `Compose`, `Concat`,
`Shard`, the batch worker) do not live in the translated file; they
are modelled from the spec where indicated and are otherwise abstract
parameters constrained by their stated contracts.  Recursion that the
Go code performs on the heap structure is given explicit fuel;
theorems about termination show fuel can never be the reason a call
fails, and theorems of partial correctness hold for every fuel.
-/

/-- A fileset reference: index of the metadata record in the store. -/
abbrev ID := Nat

/-- A path inside a fileset (Go: index entries are keyed by path strings;
paths are totally ordered, modelled as naturals). -/
abbrev FsPath := Nat

/-- A primitive (leaf) fileset layer: its serialized size in bytes and its
path-indexed entries (path, value); `SizeBytes` is the sole input to the
compaction ordering decision. -/
structure Primitive where
  SizeBytes : Int
  entries : List (FsPath × Nat)
deriving DecidableEq, Repr

/-- Fileset metadata: the tagged union stored per `ID`.  `composite` holds
the ordered pointer list that `Composite.PointsTo` returns; `empty` is the
degenerate no-variant state (Go: `Metadata` with no `Value` set). -/
inductive Metadata where
  | primitive (p : Primitive)
  | composite (pointsTo : List ID)
  | empty
deriving DecidableEq, Repr

/-- The metadata store: append-only list, keyed by index. -/
abbrev Store := List Metadata

/-- Metadata lookup (Go: `s.store.Get`); `none` models a lookup error. -/
def getMd (st : Store) (id : ID) : Option Metadata :=
  st.get? id

/-- Go `Storage.getPrimitive`: read metadata and require the primitive
variant. -/
def getPrimitive (st : Store) (id : ID) : Option Primitive :=
  match getMd st id with
  | some (.primitive p) => some p
  | _ => none

/-- Go `Storage.getPrimitiveBatch`: read each id's primitive in order,
failing on the first non-primitive or missing reference. -/
def getPrimitiveBatch (st : Store) : List ID → Option (List Primitive)
  | [] => some []
  | id :: rest =>
    match getPrimitive st id with
    | none => none
    | some p =>
      match getPrimitiveBatch st rest with
      | none => none
      | some ps => some (p :: ps)

/-- Go `indexOfCompacted`: the last `i` such that the compacted
relationship `leftSize >= rightSize * factor` holds for all consecutive
pairs of `inputs[:i+1]`; the Go loop returns the index of the first
violating pair, and the full length when there is none. -/
def indexOfCompacted (factor : Int) : List Primitive → Nat
  | a :: b :: rest =>
    if a.SizeBytes < b.SizeBytes * factor then 0
    else indexOfCompacted factor (b :: rest) + 1
  | l => l.length

/-- Go `isCompacted`: the whole layer list satisfies the compacted
relationship. -/
def isCompacted (factor : Int) (layers : List Primitive) : Bool :=
  indexOfCompacted factor layers == layers.length

/-- The adjacent-pair invariant at position `j` of a layer list. -/
def pairOK (factor : Int) (layers : List Primitive) (j : Nat) : Prop :=
  (layers.getD (j + 1) ⟨0, []⟩).SizeBytes * factor ≤
    (layers.getD j ⟨0, []⟩).SizeBytes

instance (factor : Int) (layers : List Primitive) (j : Nat) :
    Decidable (pairOK factor layers j) := by
  unfold pairOK; infer_instance

theorem pairOK_cons (factor : Int) (a : Primitive) (l : List Primitive)
    (j : Nat) : pairOK factor (a :: l) (j + 1) ↔ pairOK factor l j := by
  simp [pairOK, List.getD_cons_succ]

theorem indexOfCompacted_le_length (factor : Int) (l : List Primitive) :
    indexOfCompacted factor l ≤ l.length := by
  induction l with
  | nil => simp [indexOfCompacted]
  | cons a t ih =>
    cases t with
    | nil => simp [indexOfCompacted]
    | cons b r =>
      by_cases hab : a.SizeBytes < b.SizeBytes * factor
      · simp [indexOfCompacted, hab]
      · have := ih
        simp only [indexOfCompacted, if_neg hab, List.length_cons] at this ⊢
        omega

theorem indexOfCompacted_ne_pred (factor : Int) (l : List Primitive)
    (h : 2 ≤ l.length) : indexOfCompacted factor l ≠ l.length - 1 := by
  induction l with
  | nil => simp at h
  | cons a t ih =>
    cases t with
    | nil => simp at h
    | cons b r =>
      by_cases hab : a.SizeBytes < b.SizeBytes * factor
      · simp [indexOfCompacted, hab]
      · cases r with
        | nil => simp [indexOfCompacted, hab]
        | cons c r' =>
          have := ih (by simp)
          simp only [indexOfCompacted, if_neg hab, List.length_cons]
            at this ⊢
          omega

theorem indexOfCompacted_pairsOK (factor : Int) (l : List Primitive) :
    ∀ j, j + 1 ≤ indexOfCompacted factor l → j + 1 < l.length →
      pairOK factor l j := by
  induction l with
  | nil => intro j h1 h2; simp at h2
  | cons a t ih =>
    cases t with
    | nil => intro j h1 h2; simp at h2
    | cons b r =>
      intro j h1 h2
      by_cases hab : a.SizeBytes < b.SizeBytes * factor
      · simp [indexOfCompacted, hab] at h1
      · simp only [indexOfCompacted, if_neg hab] at h1
        cases j with
        | zero =>
          simpa [pairOK, List.getD] using not_lt.mp hab
        | succ j' =>
          have := ih j' (by omega) (by simp at h2 ⊢; omega)
          exact (pairOK_cons factor a (b :: r) j').mpr this

theorem indexOfCompacted_break (factor : Int) (l : List Primitive)
    (h : indexOfCompacted factor l < l.length) :
    ¬ pairOK factor l (indexOfCompacted factor l) := by
  induction l with
  | nil => simp [indexOfCompacted] at h
  | cons a t ih =>
    cases t with
    | nil => simp [indexOfCompacted] at h
    | cons b r =>
      by_cases hab : a.SizeBytes < b.SizeBytes * factor
      · simp [indexOfCompacted, hab, pairOK, List.getD]
      · have hh : indexOfCompacted factor (b :: r) < (b :: r).length := by
          simp only [indexOfCompacted, if_neg hab, List.length_cons] at h ⊢
          omega
        have := ih hh
        simp only [indexOfCompacted, if_neg hab]
        intro hcontra
        exact this ((pairOK_cons factor a (b :: r) _).mp hcontra)

theorem isCompacted_iff_pairs (factor : Int) (l : List Primitive) :
    isCompacted factor l = true ↔ ∀ j, j + 1 < l.length → pairOK factor l j := by
  constructor
  · intro h j hj
    have : indexOfCompacted factor l = l.length := by
      simpa [isCompacted] using h
    exact indexOfCompacted_pairsOK factor l j (by omega) hj
  · intro h
    by_contra hc
    have hne : indexOfCompacted factor l ≠ l.length := by
      simpa [isCompacted] using hc
    have hlt : indexOfCompacted factor l < l.length :=
      lt_of_le_of_ne (indexOfCompacted_le_length factor l) hne
    have hb := indexOfCompacted_break factor l hlt
    have hlen2 : 2 ≤ l.length := by
      rcases l with _ | ⟨a, _ | ⟨b, r⟩⟩
      · simp [indexOfCompacted] at hlt
      · simp [indexOfCompacted] at hlt
      · simp
    have hidx : indexOfCompacted factor l + 1 < l.length := by
      have := indexOfCompacted_ne_pred factor l hlen2
      omega
    exact hb (h _ hidx)

/-- Expand each element of a list with `g` and concatenate the pieces,
failing if any piece fails. -/
def optionCat (g : ID → Option (List ID)) : List ID → Option (List ID)
  | [] => some []
  | id :: rest =>
    match g id, optionCat g rest with
    | some xs, some ys => some (xs ++ ys)
    | _, _ => none

/-- Modelled from the spec: the per-reference step of `Storage.Flatten`
(spec §4.1).  A primitive reference stands for itself; a composite is
expanded transitively through its pointer list, depth-first, preserving
order; a missing or empty-variant reference fails, as does expansion
deeper than the fuel. -/
def flattenOne (st : Store) : Nat → ID → Option (List ID)
  | 0, id =>
    match getMd st id with
    | some (.primitive _) => some [id]
    | _ => none
  | f + 1, id =>
    match getMd st id with
    | some (.primitive _) => some [id]
    | some (.composite pointsTo) => optionCat (flattenOne st f) pointsTo
    | _ => none

/-- Modelled from the spec: `Storage.Flatten` (spec §4.1) is not part of
the translated file.  It expands every composite reference transitively,
depth-first and in place, until only primitive references remain,
preserving encounter order, and fails if any reference cannot be read, is
the empty variant, or (here) if the expansion depth exceeds the fuel. -/
def flattenF (st : Store) (f : Nat) (ids : List ID) : Option (List ID) :=
  optionCat (flattenOne st f) ids

theorem flattenOne_prim (st : Store) (f : Nat) (id : ID) (p : Primitive)
    (h : getMd st id = some (.primitive p)) :
    flattenOne st f id = some [id] := by
  cases f <;> simp [flattenOne, h]

/-- Go `Storage.IsCompacted`: true for a primitive; for a composite,
resolve the pointer list, flatten, read the primitive layers and test the
compacted relationship; a distinguished error for the empty variant. -/
def IsCompacted (factor : Int) (st : Store) (ffuel : Nat) (id : ID) :
    Except String Bool :=
  match getMd st id with
  | none => .error "fileset not found"
  | some (.composite pointsTo) =>
    match flattenF st ffuel pointsTo with
    | none => .error "flatten failed"
    | some fids =>
      match getPrimitiveBatch st fids with
      | none => .error "getPrimitiveBatch failed"
      | some layers => .ok (isCompacted factor layers)
  | some (.primitive _) => .ok true
  | some .empty => .error "IsCompacted is not defined for empty filesets"

/-- Modelled from the spec: `Storage.Compose` (spec §6) builds a new
composite pointing at the given references, with no data movement; the
fresh reference is the store's next index. -/
def Compose (st : Store) (ids : List ID) : Store × ID :=
  (st ++ [.composite ids], st.length)

/-- Modelled from the spec: `Storage.Merge` (spec §6) content-combines
primitive layers into one new primitive; the merged layer's size is the
sum of the input sizes and its entries are the inputs' entries in layer
order (first layer has precedence on duplicate paths). -/
def Merge (st : Store) (ids : List ID) : Option (Store × ID) :=
  match getPrimitiveBatch st ids with
  | none => none
  | some prims =>
    some (st ++ [.primitive ⟨(prims.map Primitive.SizeBytes).sum,
      (prims.map Primitive.entries).flatten⟩], st.length)

/-- Errors of the compaction calls: `fuelOut` is the model's artifact for
exceeding the recursion fuel, `ioErr` stands for any propagated
lookup/flatten/merge/shard/worker failure, `countMismatch` is the
distributed compactor's distinct worker-contract error, and `divPanic`
models a Go runtime fault in the child-size loop. -/
inductive Err where
  | fuelOut
  | ioErr
  | countMismatch
  | divPanic
deriving DecidableEq, Repr

/-- Go `Storage.Compact`: flatten the inputs, find the break point of the
compacted relationship; if none, compose the (flattened) ids, else merge
everything from the break point onward into a single layer, replace that
suffix with the merged reference and recurse. -/
def StorageCompact (factor : Int) (ffuel : Nat) :
    Nat → Store → List ID → Except Err (Store × ID)
  | 0, _, _ => .error .fuelOut
  | fuel + 1, st, ids =>
    match flattenF st ffuel ids with
    | none => .error .ioErr
    | some fids =>
      match getPrimitiveBatch st fids with
      | none => .error .ioErr
      | some inputs =>
        if indexOfCompacted factor inputs = inputs.length then
          .ok (Compose st fids)
        else
          match Merge st (fids.drop (indexOfCompacted factor inputs)) with
          | none => .error .ioErr
          | some (st2, merged) =>
            StorageCompact factor ffuel fuel st2
              (fids.take (indexOfCompacted factor inputs) ++ [merged])

theorem getMd_lt_length (st : Store) (id : ID) (md : Metadata)
    (h : getMd st id = some md) : id < st.length := by
  simpa [getMd] using List.get?_eq_some.mp h |>.1

theorem getMd_append (st ext : Store) (id : ID) (h : id < st.length) :
    getMd (st ++ ext) id = getMd st id := by
  simp [getMd, List.getElem?_append_left h]

theorem getMd_append_new (st : Store) (x : Metadata) :
    getMd (st ++ [x]) st.length = some x := by
  simp [getMd, List.getElem?_append_right (Nat.le_refl st.length)]

theorem getPrimitive_lt_length (st : Store) (id : ID) (p : Primitive)
    (h : getPrimitive st id = some p) : id < st.length := by
  unfold getPrimitive at h
  rcases hm : getMd st id with _ | md
  · simp [hm] at h
  · exact getMd_lt_length st id md hm

theorem getPrimitive_append (st ext : Store) (id : ID) (p : Primitive)
    (h : getPrimitive st id = some p) :
    getPrimitive (st ++ ext) id = some p := by
  have hlt := getPrimitive_lt_length st id p h
  unfold getPrimitive at h ⊢
  rw [getMd_append st ext id hlt]
  exact h

theorem getPrimitiveBatch_length (st : Store) (ids : List ID)
    (ps : List Primitive) (h : getPrimitiveBatch st ids = some ps) :
    ps.length = ids.length := by
  induction ids generalizing ps with
  | nil => simp [getPrimitiveBatch] at h; simp [← h]
  | cons id rest ih =>
    unfold getPrimitiveBatch at h
    rcases hp : getPrimitive st id with _ | p
    · simp [hp] at h
    · rcases hr : getPrimitiveBatch st rest with _ | ps'
      · simp [hp, hr] at h
      · simp [hp, hr] at h
        simp [← h, ih ps' hr]

theorem getPrimitiveBatch_append_ids (st : Store) (l1 l2 : List ID)
    (ps : List Primitive) (h : getPrimitiveBatch st (l1 ++ l2) = some ps) :
    ∃ p1 p2, getPrimitiveBatch st l1 = some p1 ∧
      getPrimitiveBatch st l2 = some p2 ∧ ps = p1 ++ p2 := by
  induction l1 generalizing ps with
  | nil => exact ⟨[], ps, rfl, by simpa using h, rfl⟩
  | cons id rest ih =>
    unfold getPrimitiveBatch at h
    rcases hp : getPrimitive st id with _ | p
    · simp [hp] at h
    · rcases hr : getPrimitiveBatch st (rest ++ l2) with _ | ps'
      · simp [hp, hr] at h
      · simp [hp, hr] at h
        obtain ⟨p1, p2, h1, h2, h3⟩ := ih ps' hr
        exact ⟨p :: p1, p2, by simp [getPrimitiveBatch, hp, h1], h2,
          by simp [← h, h3]⟩

theorem getPrimitiveBatch_combine (st : Store) (l1 l2 : List ID)
    (p1 p2 : List Primitive) (h1 : getPrimitiveBatch st l1 = some p1)
    (h2 : getPrimitiveBatch st l2 = some p2) :
    getPrimitiveBatch st (l1 ++ l2) = some (p1 ++ p2) := by
  induction l1 generalizing p1 with
  | nil => simp [getPrimitiveBatch] at h1; simp [← h1, h2]
  | cons id rest ih =>
    unfold getPrimitiveBatch at h1
    rcases hp : getPrimitive st id with _ | p
    · simp [hp] at h1
    · rcases hr : getPrimitiveBatch st rest with _ | ps'
      · simp [hp, hr] at h1
      · simp [hp, hr] at h1
        simp [getPrimitiveBatch, hp, ih ps' hr, ← h1]

theorem getPrimitiveBatch_append_store (st ext : Store) (ids : List ID)
    (ps : List Primitive) (h : getPrimitiveBatch st ids = some ps) :
    getPrimitiveBatch (st ++ ext) ids = some ps := by
  induction ids generalizing ps with
  | nil => simpa using h
  | cons id rest ih =>
    unfold getPrimitiveBatch at h
    rcases hp : getPrimitive st id with _ | p
    · simp [hp] at h
    · rcases hr : getPrimitiveBatch st rest with _ | ps'
      · simp [hp, hr] at h
      · simp [hp, hr] at h
        simp [getPrimitiveBatch, getPrimitive_append st ext id p hp,
          ih ps' hr, ← h]

theorem getPrimitiveBatch_of_primitive (st : Store) (ids : List ID)
    (h : ∀ id ∈ ids, ∃ p, getMd st id = some (.primitive p)) :
    ∃ ps, getPrimitiveBatch st ids = some ps := by
  induction ids with
  | nil => exact ⟨[], rfl⟩
  | cons id rest ih =>
    obtain ⟨p, hp⟩ := h id (by simp)
    obtain ⟨ps, hps⟩ := ih (fun i hi => h i (by simp [hi]))
    exact ⟨p :: ps, by simp [getPrimitiveBatch, getPrimitive, hp, hps]⟩

theorem flattenF_nil (st : Store) (f : Nat) : flattenF st f [] = some [] :=
  rfl

theorem flattenF_cons_prim (st : Store) (f : Nat) (id : ID) (rest : List ID)
    (p : Primitive) (h : getMd st id = some (.primitive p)) :
    flattenF st f (id :: rest) =
      match flattenF st f rest with
      | none => none
      | some ys => some (id :: ys) := by
  unfold flattenF
  rw [optionCat, flattenOne_prim st f id p h]
  rcases optionCat (flattenOne st f) rest with _ | ys <;> simp

theorem flattenF_cons_comp (st : Store) (f' : Nat) (id : ID)
    (rest pointsTo : List ID) (h : getMd st id = some (.composite pointsTo)) :
    flattenF st (f' + 1) (id :: rest) =
      match flattenF st f' pointsTo with
      | none => none
      | some xs =>
        match flattenF st (f' + 1) rest with
        | none => none
        | some ys => some (xs ++ ys) := by
  unfold flattenF
  rw [optionCat]
  have h1 : flattenOne st (f' + 1) id = optionCat (flattenOne st f') pointsTo := by
    simp [flattenOne, h]
  rw [h1]
  rcases optionCat (flattenOne st f') pointsTo with _ | xs <;>
    rcases hr : optionCat (flattenOne st (f' + 1)) rest with _ | ys <;> simp

theorem flattenF_cons_comp_zero (st : Store) (id : ID)
    (rest pointsTo : List ID) (h : getMd st id = some (.composite pointsTo)) :
    flattenF st 0 (id :: rest) = none := by
  unfold flattenF
  rw [optionCat]
  have h1 : flattenOne st 0 id = none := by simp [flattenOne, h]
  rw [h1]

theorem flattenF_cons_bad (st : Store) (f : Nat) (id : ID) (rest : List ID)
    (h : getMd st id = none ∨ getMd st id = some .empty) :
    flattenF st f (id :: rest) = none := by
  unfold flattenF
  rw [optionCat]
  have h1 : flattenOne st f id = none := by
    rcases h with h | h <;> cases f <;> simp [flattenOne, h]
  rw [h1]

theorem flattenF_of_primitives (st : Store) (f : Nat) (ids : List ID)
    (h : ∀ id ∈ ids, ∃ p, getMd st id = some (.primitive p)) :
    flattenF st f ids = some ids := by
  induction ids with
  | nil => exact flattenF_nil st f
  | cons id rest ih =>
    obtain ⟨p, hp⟩ := h id (by simp)
    have := ih (fun i hi => h i (by simp [hi]))
    rw [flattenF_cons_prim st f id rest p hp, this]

theorem flattenF_sound (st : Store) : ∀ f ids out,
    flattenF st f ids = some out →
    ∀ id ∈ out, ∃ p, getMd st id = some (.primitive p) := by
  intro f
  induction f using Nat.strong_induction_on with
  | _ f ihf =>
    intro ids
    induction ids with
    | nil =>
      intro out h
      rw [flattenF_nil] at h
      intro i hi
      rw [← Option.some.inj h] at hi
      cases hi
    | cons id rest ihr =>
      intro out h
      rcases hm : getMd st id with _ | md
      · rw [flattenF_cons_bad st f id rest (Or.inl hm)] at h; cases h
      rcases md with p | pointsTo | _
      · rw [flattenF_cons_prim st f id rest p hm] at h
        rcases hr : flattenF st f rest with _ | ys
        · rw [hr] at h; cases h
        · rw [hr] at h
          simp at h
          intro i hi
          rw [← h] at hi
          rcases List.mem_cons.mp hi with h1 | h1
          · exact ⟨p, by rw [h1]; exact hm⟩
          · exact ihr ys hr i h1
      · cases f with
        | zero => rw [flattenF_cons_comp_zero st id rest pointsTo hm] at h; cases h
        | succ f' =>
          rw [flattenF_cons_comp st f' id rest pointsTo hm] at h
          rcases hx : flattenF st f' pointsTo with _ | xs
          · rw [hx] at h; cases h
          rcases hy : flattenF st (f' + 1) rest with _ | ys
          · rw [hx, hy] at h; cases h
          rw [hx, hy] at h
          simp at h
          intro i hi
          rw [← h] at hi
          rcases List.mem_append.mp hi with h1 | h1
          · exact ihf f' (by omega) pointsTo xs hx i h1
          · exact ihr ys hy i h1
      · rw [flattenF_cons_bad st f id rest (Or.inr hm)] at h; cases h

theorem flattenF_append_store (st ext : Store) : ∀ f ids out,
    flattenF st f ids = some out →
    flattenF (st ++ ext) f ids = some out := by
  intro f
  induction f using Nat.strong_induction_on with
  | _ f ihf =>
    intro ids
    induction ids with
    | nil => intro out h; rw [flattenF_nil] at h ⊢; exact h
    | cons id rest ihr =>
      intro out h
      rcases hm : getMd st id with _ | md
      · rw [flattenF_cons_bad st f id rest (Or.inl hm)] at h; cases h
      have hlt := getMd_lt_length st id md hm
      have hm2 : getMd (st ++ ext) id = some md := by
        rw [getMd_append st ext id hlt]; exact hm
      rcases md with p | pointsTo | _
      · rw [flattenF_cons_prim st f id rest p hm] at h
        rw [flattenF_cons_prim (st ++ ext) f id rest p hm2]
        rcases hr : flattenF st f rest with _ | ys
        · rw [hr] at h; cases h
        · rw [hr] at h
          rw [ihr ys hr]
          exact h
      · cases f with
        | zero => rw [flattenF_cons_comp_zero st id rest pointsTo hm] at h; cases h
        | succ f' =>
          rw [flattenF_cons_comp st f' id rest pointsTo hm] at h
          rw [flattenF_cons_comp (st ++ ext) f' id rest pointsTo hm2]
          rcases hx : flattenF st f' pointsTo with _ | xs
          · rw [hx] at h; cases h
          rcases hy : flattenF st (f' + 1) rest with _ | ys
          · rw [hx, hy] at h; cases h
          rw [hx, hy] at h
          rw [ihf f' (by omega) pointsTo xs hx, ihr ys hy]
          exact h
      · rw [flattenF_cons_bad st f id rest (Or.inr hm)] at h; cases h

theorem flattenF_fuel_mono (st : Store) : ∀ f f' ids out, f ≤ f' →
    flattenF st f ids = some out → flattenF st f' ids = some out := by
  intro f
  induction f using Nat.strong_induction_on with
  | _ f ihf =>
    intro f' ids
    induction ids with
    | nil => intro out _ h; rw [flattenF_nil] at h ⊢; exact h
    | cons id rest ihr =>
      intro out hff h
      rcases hm : getMd st id with _ | md
      · rw [flattenF_cons_bad st f id rest (Or.inl hm)] at h; cases h
      rcases md with p | pointsTo | _
      · rw [flattenF_cons_prim st f id rest p hm] at h
        rw [flattenF_cons_prim st f' id rest p hm]
        rcases hr : flattenF st f rest with _ | ys
        · rw [hr] at h; cases h
        · rw [hr] at h
          rw [ihr ys hff hr]
          exact h
      · cases f with
        | zero => rw [flattenF_cons_comp_zero st id rest pointsTo hm] at h; cases h
        | succ f0 =>
          rw [flattenF_cons_comp st f0 id rest pointsTo hm] at h
          rcases hx : flattenF st f0 pointsTo with _ | xs
          · rw [hx] at h; cases h
          rcases hy : flattenF st (f0 + 1) rest with _ | ys
          · rw [hx, hy] at h; cases h
          rw [hx, hy] at h
          cases f' with
          | zero => omega
          | succ f1 =>
            rw [flattenF_cons_comp st f1 id rest pointsTo hm]
            rw [ihf f0 (by omega) f1 pointsTo xs (by omega) hx]
            rw [ihr ys (by omega) hy]
            exact h
      · rw [flattenF_cons_bad st f id rest (Or.inr hm)] at h; cases h

theorem flattenF_append_ids (st : Store) (f : Nat) : ∀ l1 l2 out,
    flattenF st f (l1 ++ l2) = some out →
    ∃ o1 o2, flattenF st f l1 = some o1 ∧ flattenF st f l2 = some o2 ∧
      out = o1 ++ o2 := by
  intro l1
  induction l1 with
  | nil =>
    intro l2 out h
    exact ⟨[], out, flattenF_nil st f, by simpa using h, rfl⟩
  | cons id rest ih =>
    intro l2 out h
    rw [List.cons_append] at h
    rcases hm : getMd st id with _ | md
    · rw [flattenF_cons_bad st f id (rest ++ l2) (Or.inl hm)] at h; cases h
    rcases md with p | pointsTo | _
    · rw [flattenF_cons_prim st f id (rest ++ l2) p hm] at h
      rcases hr : flattenF st f (rest ++ l2) with _ | ys
      · rw [hr] at h; cases h
      rw [hr] at h
      obtain ⟨o1, o2, h1, h2, h3⟩ := ih l2 ys hr
      simp at h
      refine ⟨id :: o1, o2, ?_, h2, ?_⟩
      · rw [flattenF_cons_prim st f id rest p hm, h1]
      · rw [← h, h3]; simp
    · cases f with
      | zero => rw [flattenF_cons_comp_zero st id (rest ++ l2) pointsTo hm] at h; cases h
      | succ f' =>
        rw [flattenF_cons_comp st f' id (rest ++ l2) pointsTo hm] at h
        rcases hx : flattenF st f' pointsTo with _ | xs
        · rw [hx] at h; cases h
        rcases hy : flattenF st (f' + 1) (rest ++ l2) with _ | ys
        · rw [hx, hy] at h; cases h
        rw [hx, hy] at h
        obtain ⟨o1, o2, h1, h2, h3⟩ := ih l2 ys hy
        simp at h
        refine ⟨xs ++ o1, o2, ?_, h2, ?_⟩
        · rw [flattenF_cons_comp st f' id rest pointsTo hm, hx, h1]
        · rw [← h, h3]; simp
    · rw [flattenF_cons_bad st f id (rest ++ l2) (Or.inr hm)] at h; cases h

theorem flattenF_combine (st : Store) (f : Nat) : ∀ l1 l2 o1 o2,
    flattenF st f l1 = some o1 → flattenF st f l2 = some o2 →
    flattenF st f (l1 ++ l2) = some (o1 ++ o2) := by
  intro l1
  induction l1 with
  | nil =>
    intro l2 o1 o2 h1 h2
    rw [flattenF_nil] at h1
    rw [List.nil_append, ← Option.some.inj h1, List.nil_append]
    exact h2
  | cons id rest ih =>
    intro l2 o1 o2 h1 h2
    rw [List.cons_append]
    rcases hm : getMd st id with _ | md
    · rw [flattenF_cons_bad st f id rest (Or.inl hm)] at h1; cases h1
    rcases md with p | pointsTo | _
    · rw [flattenF_cons_prim st f id rest p hm] at h1
      rw [flattenF_cons_prim st f id (rest ++ l2) p hm]
      rcases hr : flattenF st f rest with _ | ys
      · rw [hr] at h1; cases h1
      rw [hr] at h1
      simp at h1
      rw [ih l2 ys o2 hr h2, ← h1]
      simp
    · cases f with
      | zero => rw [flattenF_cons_comp_zero st id rest pointsTo hm] at h1; cases h1
      | succ f' =>
        rw [flattenF_cons_comp st f' id rest pointsTo hm] at h1
        rw [flattenF_cons_comp st f' id (rest ++ l2) pointsTo hm]
        rcases hx : flattenF st f' pointsTo with _ | xs
        · rw [hx] at h1; cases h1
        rcases hy : flattenF st (f' + 1) rest with _ | ys
        · rw [hx, hy] at h1; cases h1
        rw [hx, hy] at h1
        simp at h1
        rw [ih l2 ys o2 hy h2, ← h1]
        simp
    · rw [flattenF_cons_bad st f id rest (Or.inr hm)] at h1; cases h1

theorem getPrimitiveBatch_mem (st : Store) (ids : List ID)
    (ps : List Primitive) (h : getPrimitiveBatch st ids = some ps) :
    ∀ id ∈ ids, ∃ p, getMd st id = some (.primitive p) := by
  induction ids generalizing ps with
  | nil => intro id hid; cases hid
  | cons i rest ih =>
    unfold getPrimitiveBatch at h
    rcases hp : getPrimitive st i with _ | p
    · simp [hp] at h
    rcases hr : getPrimitiveBatch st rest with _ | ps'
    · simp [hp, hr] at h
    intro id hid
    rcases List.mem_cons.mp hid with h1 | h1
    · subst h1
      unfold getPrimitive at hp
      rcases hm : getMd st id with _ | md
      · rw [hm] at hp; cases hp
      rcases md with q | l | _ <;> rw [hm] at hp <;> simp at hp
      exact ⟨q, rfl⟩
    · exact ih ps' hr id h1

/-- C4: `indexOfCompacted(f, L)` returns the largest `i` such that every
consecutive pair of `L[0..i]` satisfies `left.SizeBytes >=
right.SizeBytes * f` (all pairs up to the returned index hold and, when
the result is short of the length, the pair at the returned index is the
first violation, so a first violating pair `(j, j+1)` makes it return
`j`, not `j+1`); for length-0 or length-1 input it returns the length;
with `f = 10` and sizes `[100, 50, 4]` it returns `0`; and it returns
the full length iff `isCompacted` is true. -/
theorem indexOfCompacted_spec_C4 (factor : Int) (L : List Primitive) :
    (∀ j, j + 1 ≤ indexOfCompacted factor L → j + 1 < L.length →
      pairOK factor L j) ∧
    (indexOfCompacted factor L < L.length →
      ¬ pairOK factor L (indexOfCompacted factor L)) ∧
    (L.length ≤ 1 → indexOfCompacted factor L = L.length) ∧
    indexOfCompacted 10 [⟨100, []⟩, ⟨50, []⟩, ⟨4, []⟩] = 0 ∧
    (indexOfCompacted factor L = L.length ↔ isCompacted factor L = true) := by
  refine ⟨indexOfCompacted_pairsOK factor L,
    indexOfCompacted_break factor L, ?_, by decide, ?_⟩
  · intro h
    rcases L with _ | ⟨a, _ | ⟨b, r⟩⟩
    · rfl
    · rfl
    · simp at h
  · constructor
    · intro h; simp [isCompacted, h]
    · intro h; simpa [isCompacted] using h

theorem indexOfCompacted_spec_C4_witness :
    pairOK 10 [⟨500, []⟩, ⟨50, []⟩] 0 ∧
    indexOfCompacted 10 ([⟨7, []⟩] : List Primitive) = 1 ∧
    indexOfCompacted 10 [⟨100, []⟩, ⟨50, []⟩, ⟨4, []⟩] = 0 := by
  refine ⟨?_, ?_, ?_⟩
  · exact (indexOfCompacted_spec_C4 10 [⟨500, []⟩, ⟨50, []⟩]).1 0
      (by decide) (by decide)
  · exact (indexOfCompacted_spec_C4 10 [⟨7, []⟩]).2.2.1 (by decide)
  · exact (indexOfCompacted_spec_C4 10 []).2.2.2.1

/-- C5: `IsCompacted` returns true unconditionally for a `Primitive`; for
a `Composite` whose pointer list flattens and reads back as `layers` it
returns true iff every consecutive pair of `layers` satisfies the
size-ratio invariant; for the empty variant it returns the distinguished
error instead of a boolean. -/
theorem IsCompacted_spec_C5 (factor : Int) (st : Store) (ffuel : Nat)
    (id : ID) (md : Metadata) (h : getMd st id = some md) :
    (∀ p, md = .primitive p → IsCompacted factor st ffuel id = .ok true) ∧
    (∀ pointsTo fids layers, md = .composite pointsTo →
      flattenF st ffuel pointsTo = some fids →
      getPrimitiveBatch st fids = some layers →
      IsCompacted factor st ffuel id = .ok (isCompacted factor layers) ∧
      (IsCompacted factor st ffuel id = .ok true ↔
        ∀ j, j + 1 < layers.length → pairOK factor layers j)) ∧
    (md = .empty → IsCompacted factor st ffuel id =
      .error "IsCompacted is not defined for empty filesets") := by
  refine ⟨?_, ?_, ?_⟩
  · intro p hp; subst hp; simp [IsCompacted, h]
  · intro pointsTo fids layers hp hfl hb
    subst hp
    have h1 : IsCompacted factor st ffuel id = .ok (isCompacted factor layers) := by
      simp [IsCompacted, h, hfl, hb]
    refine ⟨h1, ?_⟩
    rw [h1]
    constructor
    · intro h2
      exact (isCompacted_iff_pairs factor layers).mp (by simpa using h2)
    · intro h2
      rw [(isCompacted_iff_pairs factor layers).mpr h2]
  · intro hp; subst hp; simp [IsCompacted, h]

theorem IsCompacted_spec_C5_witness :
    IsCompacted 10 [.primitive ⟨4, []⟩, .composite [0], .empty] 1 0 =
      .ok true ∧
    IsCompacted 10 [.primitive ⟨4, []⟩, .composite [0], .empty] 1 1 =
      .ok (isCompacted 10 [⟨4, []⟩]) ∧
    IsCompacted 10 [.primitive ⟨4, []⟩, .composite [0], .empty] 1 2 =
      .error "IsCompacted is not defined for empty filesets" := by
  refine ⟨?_, ?_, ?_⟩
  · exact (IsCompacted_spec_C5 10 [.primitive ⟨4, []⟩, .composite [0], .empty]
      1 0 (.primitive ⟨4, []⟩) (by decide)).1 ⟨4, []⟩ rfl
  · exact ((IsCompacted_spec_C5 10 [.primitive ⟨4, []⟩, .composite [0], .empty]
      1 1 (.composite [0]) (by decide)).2.1 [0] [0] [⟨4, []⟩] rfl
      (by decide) (by decide)).1
  · exact (IsCompacted_spec_C5 10 [.primitive ⟨4, []⟩, .composite [0], .empty]
      1 2 .empty (by decide)).2.2 rfl

/-- C10: `IsCompacted` on a composite whose pointer list transitively
flattens to zero primitive layers returns `true` without error (the
break-point scan of the empty layer list reaches its length, 0), unlike
the empty-variant case. -/
theorem IsCompacted_vacuous_composite_C10 (factor : Int) (st : Store)
    (ffuel : Nat) (id : ID) (pointsTo : List ID)
    (h : getMd st id = some (.composite pointsTo))
    (hfl : flattenF st ffuel pointsTo = some []) :
    IsCompacted factor st ffuel id = .ok true ∧
    indexOfCompacted factor [] = ([] : List Primitive).length := by
  constructor
  · simp [IsCompacted, h, hfl, getPrimitiveBatch, isCompacted, indexOfCompacted]
  · rfl

theorem IsCompacted_vacuous_composite_C10_witness :
    IsCompacted 10 [.composite []] 1 0 = .ok true :=
  (IsCompacted_vacuous_composite_C10 10 [.composite []] 1 0 []
    (by decide) (by decide)).1

/-- The flattened primitive layer list of a reference list: flatten the
references, then read each primitive. -/
def flattenedLayers (st : Store) (f : Nat) (ids : List ID) :
    Option (List Primitive) :=
  match flattenF st f ids with
  | none => none
  | some fids => getPrimitiveBatch st fids

theorem Compose_flattenedLayers (st : Store) (fids : List ID)
    (inputs : List Primitive) (hb : getPrimitiveBatch st fids = some inputs) :
    flattenedLayers (st ++ [.composite fids]) 2 [(Compose st fids).2] =
      some inputs := by
  have hprim := getPrimitiveBatch_mem st fids inputs hb
  have hprim2 : ∀ id ∈ fids, ∃ p,
      getMd (st ++ [Metadata.composite fids]) id = some (.primitive p) := by
    intro id hid
    obtain ⟨p, hp⟩ := hprim id hid
    exact ⟨p, by
      rw [getMd_append st [Metadata.composite fids] id
        (getMd_lt_length st id _ hp)]
      exact hp⟩
  have hmd : getMd (st ++ [Metadata.composite fids]) st.length =
      some (.composite fids) := getMd_append_new st (.composite fids)
  have hfl : flattenF (st ++ [Metadata.composite fids]) 2 [st.length] =
      some fids := by
    rw [flattenF_cons_comp (st ++ [Metadata.composite fids]) 1 st.length []
      fids hmd]
    rw [flattenF_of_primitives (st ++ [Metadata.composite fids]) 1 fids hprim2]
    rw [flattenF_nil]
    simp
  unfold flattenedLayers
  unfold Compose
  rw [hfl]
  exact getPrimitiveBatch_append_store st [Metadata.composite fids] fids
    inputs hb

theorem StorageCompact_flatten_err (factor : Int) (ffuel fuel : Nat)
    (st : Store) (ids : List ID) (h : flattenF st ffuel ids = none) :
    StorageCompact factor ffuel (fuel + 1) st ids = .error .ioErr := by
  simp [StorageCompact, h]

theorem StorageCompact_batch_err (factor : Int) (ffuel fuel : Nat)
    (st : Store) (ids fids : List ID) (hfl : flattenF st ffuel ids = some fids)
    (hb : getPrimitiveBatch st fids = none) :
    StorageCompact factor ffuel (fuel + 1) st ids = .error .ioErr := by
  simp [StorageCompact, hfl, hb]

theorem StorageCompact_compose (factor : Int) (ffuel fuel : Nat)
    (st : Store) (ids fids : List ID) (inputs : List Primitive)
    (hfl : flattenF st ffuel ids = some fids)
    (hb : getPrimitiveBatch st fids = some inputs)
    (hc : indexOfCompacted factor inputs = inputs.length) :
    StorageCompact factor ffuel (fuel + 1) st ids = .ok (Compose st fids) := by
  simp [StorageCompact, hfl, hb, hc]

theorem StorageCompact_merge_err (factor : Int) (ffuel fuel : Nat)
    (st : Store) (ids fids : List ID) (inputs : List Primitive)
    (hfl : flattenF st ffuel ids = some fids)
    (hb : getPrimitiveBatch st fids = some inputs)
    (hc : indexOfCompacted factor inputs ≠ inputs.length)
    (hmg : Merge st (fids.drop (indexOfCompacted factor inputs)) = none) :
    StorageCompact factor ffuel (fuel + 1) st ids = .error .ioErr := by
  simp [StorageCompact, hfl, hb, hc, hmg]

theorem StorageCompact_merge_step (factor : Int) (ffuel fuel : Nat)
    (st st2 : Store) (ids fids : List ID) (inputs : List Primitive)
    (merged : ID) (hfl : flattenF st ffuel ids = some fids)
    (hb : getPrimitiveBatch st fids = some inputs)
    (hc : indexOfCompacted factor inputs ≠ inputs.length)
    (hmg : Merge st (fids.drop (indexOfCompacted factor inputs)) =
      some (st2, merged)) :
    StorageCompact factor ffuel (fuel + 1) st ids =
      StorageCompact factor ffuel fuel st2
        (fids.take (indexOfCompacted factor inputs) ++ [merged]) := by
  simp [StorageCompact, hfl, hb, hc, hmg]

/-- C1: a successful sequential `Storage.Compact` returns a fileset whose
flattened primitive layer list satisfies the compacted relationship:
`size[j] >= size[j+1] * factor` for every adjacent pair (`Merge` is
modelled as producing a single new primitive combining its inputs). -/
theorem StorageCompact_restores_invariant_C1 (factor : Int)
    (_hpos : 0 < factor) (ffuel fuel : Nat) (st : Store) (ids : List ID)
    (st' : Store) (rid : ID)
    (h : StorageCompact factor ffuel fuel st ids = .ok (st', rid)) :
    ∃ layers, flattenedLayers st' 2 [rid] = some layers ∧
      isCompacted factor layers = true ∧
      ∀ j, j + 1 < layers.length → pairOK factor layers j := by
  induction fuel generalizing st ids with
  | zero => cases h
  | succ fuel ih =>
    rcases hfl : flattenF st ffuel ids with _ | fids
    · rw [StorageCompact_flatten_err factor ffuel fuel st ids hfl] at h
      cases h
    rcases hb : getPrimitiveBatch st fids with _ | inputs
    · rw [StorageCompact_batch_err factor ffuel fuel st ids fids hfl hb] at h
      cases h
    by_cases hc : indexOfCompacted factor inputs = inputs.length
    · rw [StorageCompact_compose factor ffuel fuel st ids fids inputs
        hfl hb hc] at h
      have hok : Compose st fids = (st', rid) := by simpa using h
      have hlay := Compose_flattenedLayers st fids inputs hb
      have hst : st' = st ++ [Metadata.composite fids] := by
        have := congrArg Prod.fst hok
        simpa [Compose] using this.symm
      have hrid : rid = st.length := by
        have := congrArg Prod.snd hok
        simpa [Compose] using this.symm
      refine ⟨inputs, ?_, ?_, ?_⟩
      · rw [hst, hrid]
        simpa [Compose] using hlay
      · simp [isCompacted, hc]
      · intro j hj
        exact (isCompacted_iff_pairs factor inputs).mp
          (by simp [isCompacted, hc]) j hj
    · rcases hmg : Merge st (fids.drop (indexOfCompacted factor inputs))
        with _ | res
      · rw [StorageCompact_merge_err factor ffuel fuel st ids fids inputs
          hfl hb hc hmg] at h
        cases h
      rcases res with ⟨st2, merged⟩
      rw [StorageCompact_merge_step factor ffuel fuel st st2 ids fids inputs
        merged hfl hb hc hmg] at h
      exact ih st2 (fids.take (indexOfCompacted factor inputs) ++ [merged]) h

theorem StorageCompact_restores_invariant_C1_witness :
    ∃ layers,
      flattenedLayers [.primitive ⟨100, []⟩, .primitive ⟨50, []⟩,
        .primitive ⟨4, []⟩, .primitive ⟨154, []⟩, .composite [3]] 2 [4] =
        some layers ∧
      isCompacted 10 layers = true ∧
      ∀ j, j + 1 < layers.length → pairOK 10 layers j :=
  StorageCompact_restores_invariant_C1 10 (by decide) 1 4
    [.primitive ⟨100, []⟩, .primitive ⟨50, []⟩, .primitive ⟨4, []⟩]
    [0, 1, 2]
    [.primitive ⟨100, []⟩, .primitive ⟨50, []⟩, .primitive ⟨4, []⟩,
      .primitive ⟨154, []⟩, .composite [3]] 4 rfl

/-- C2 counterexample: on the already-compacted input `[1]` (a composite
pointing at the single primitive `0`), `Storage.Compact` composes the
*flattened* list `[0]` — the stored result points at `[0]`, not at the
original reference list `[1]` — because the Go code reassigns `ids` to
the flattened list before calling `Compose`. -/
theorem StorageCompact_compose_original_cex_C2 :
    StorageCompact 10 2 2 [.primitive ⟨4, []⟩, .composite [0]] [1] =
      .ok ([.primitive ⟨4, []⟩, .composite [0], .composite [0]], 2) ∧
    getMd [.primitive ⟨4, []⟩, .composite [0], .composite [0]] 2 =
      some (.composite [0]) ∧
    Metadata.composite [0] ≠ Metadata.composite [1] := by
  refine ⟨rfl, rfl, by decide⟩

/-- C2 (amended): when `Storage.Compact` finds its input already
compacted, it delegates to `Compose` over the *flattened* primitive
reference list (the Go code shadows the caller's list with the flattened
one before composing); composition performs no merge, and the returned
reference's flattened primitive layers equal the input's flattened
layers, same order, same sizes. -/
theorem StorageCompact_composes_flattened_C2 (factor : Int)
    (ffuel fuel : Nat) (st : Store) (ids fids : List ID)
    (inputs : List Primitive)
    (hfl : flattenF st ffuel ids = some fids)
    (hb : getPrimitiveBatch st fids = some inputs)
    (hc : indexOfCompacted factor inputs = inputs.length) :
    StorageCompact factor ffuel (fuel + 1) st ids = .ok (Compose st fids) ∧
    flattenedLayers (st ++ [.composite fids]) 2 [st.length] = some inputs := by
  refine ⟨StorageCompact_compose factor ffuel fuel st ids fids inputs
    hfl hb hc, ?_⟩
  simpa [Compose] using Compose_flattenedLayers st fids inputs hb

theorem StorageCompact_composes_flattened_C2_witness :
    StorageCompact 10 2 1 [.primitive ⟨4, []⟩, .composite [0]] [1] =
      .ok (Compose [.primitive ⟨4, []⟩, .composite [0]] [0]) ∧
    flattenedLayers ([.primitive ⟨4, []⟩, .composite [0]] ++
      [.composite [0]]) 2 [2] = some [⟨4, []⟩] :=
  StorageCompact_composes_flattened_C2 10 2 0
    [.primitive ⟨4, []⟩, .composite [0]] [1] [0] [⟨4, []⟩]
    rfl rfl (by decide)

theorem StorageCompact_merge_branch (factor : Int) (ffuel : Nat) (st : Store)
    (fids : List ID) (inputs : List Primitive)
    (hb : getPrimitiveBatch st fids = some inputs)
    (hc : indexOfCompacted factor inputs < inputs.length) :
    ∃ st2 merged,
      Merge st (fids.drop (indexOfCompacted factor inputs)) =
        some (st2, merged) ∧
      flattenF st2 ffuel
        (fids.take (indexOfCompacted factor inputs) ++ [merged]) =
        some (fids.take (indexOfCompacted factor inputs) ++ [merged]) ∧
      (fids.take (indexOfCompacted factor inputs) ++ [merged]).length =
        indexOfCompacted factor inputs + 1 ∧
      indexOfCompacted factor inputs + 1 < fids.length := by
  have hlen : inputs.length = fids.length :=
    getPrimitiveBatch_length st fids inputs hb
  have hb2 : getPrimitiveBatch st
      (fids.take (indexOfCompacted factor inputs) ++
        fids.drop (indexOfCompacted factor inputs)) = some inputs := by
    rw [List.take_append_drop]; exact hb
  obtain ⟨p1, p2, hp1, hp2, hps⟩ :=
    getPrimitiveBatch_append_ids st _ _ inputs hb2
  refine ⟨st ++ [.primitive ⟨(p2.map Primitive.SizeBytes).sum,
    (p2.map Primitive.entries).flatten⟩], st.length, ?_, ?_, ?_, ?_⟩
  · simp [Merge, hp2]
  · apply flattenF_of_primitives
    intro id hid
    rcases List.mem_append.mp hid with h1 | h1
    · obtain ⟨p, hp⟩ := getPrimitiveBatch_mem st _ p1 hp1 id h1
      exact ⟨p, by
        rw [getMd_append st _ id (getMd_lt_length st id _ hp)]; exact hp⟩
    · simp at h1
      subst h1
      exact ⟨_, getMd_append_new st _⟩
  · simp [List.length_take]
    omega
  · have h2 : 2 ≤ inputs.length := by
      rcases inputs with _ | ⟨a, _ | ⟨b, r⟩⟩
      · simp at hc
      · simp [indexOfCompacted] at hc
      · simp
    have h3 := indexOfCompacted_ne_pred factor inputs h2
    omega

/-- C6: the sequential `Storage.Compact` terminates on every input:
whenever it takes the merge branch, the list passed to the recursive call
flattens to a strictly shorter layer list (the merged suffix has length
at least 2 and collapses to one reference), so recursion fuel exceeding
the flattened input length can never run out. -/
theorem StorageCompact_terminates_C6 (factor : Int) (ffuel : Nat)
    (st : Store) (ids fids : List ID)
    (hfl : flattenF st ffuel ids = some fids) :
    (∀ inputs, getPrimitiveBatch st fids = some inputs →
      indexOfCompacted factor inputs < inputs.length →
      ∃ st2 merged,
        Merge st (fids.drop (indexOfCompacted factor inputs)) =
          some (st2, merged) ∧
        flattenF st2 ffuel
          (fids.take (indexOfCompacted factor inputs) ++ [merged]) =
          some (fids.take (indexOfCompacted factor inputs) ++ [merged]) ∧
        (fids.take (indexOfCompacted factor inputs) ++ [merged]).length =
          indexOfCompacted factor inputs + 1 ∧
        indexOfCompacted factor inputs + 1 < fids.length) ∧
    (∀ fuel, fids.length + 1 ≤ fuel →
      StorageCompact factor ffuel fuel st ids ≠ .error .fuelOut) := by
  constructor
  · intro inputs hb hc
    exact StorageCompact_merge_branch factor ffuel st fids inputs hb hc
  · suffices H : ∀ n st ids fids fuel, flattenF st ffuel ids = some fids →
        fids.length = n → n + 1 ≤ fuel →
        StorageCompact factor ffuel fuel st ids ≠ .error .fuelOut by
      intro fuel hfuel
      exact H fids.length st ids fids fuel hfl rfl hfuel
    intro n
    induction n using Nat.strong_induction_on with
    | _ n ih =>
      intro st ids fids fuel hfl hlen hfuel
      cases fuel with
      | zero => omega
      | succ fuel =>
        rcases hb : getPrimitiveBatch st fids with _ | inputs
        · rw [StorageCompact_batch_err factor ffuel fuel st ids fids hfl hb]
          simp
        by_cases hc : indexOfCompacted factor inputs = inputs.length
        · rw [StorageCompact_compose factor ffuel fuel st ids fids inputs
            hfl hb hc]
          simp
        · have hlt : indexOfCompacted factor inputs < inputs.length :=
            lt_of_le_of_ne (indexOfCompacted_le_length factor inputs) hc
          obtain ⟨st2, merged, hmg, hfl2, hlen2, hdec⟩ :=
            StorageCompact_merge_branch factor ffuel st fids inputs hb hlt
          rw [StorageCompact_merge_step factor ffuel fuel st st2 ids fids
            inputs merged hfl hb hc hmg]
          exact ih (indexOfCompacted factor inputs + 1) (by omega) st2
            (fids.take (indexOfCompacted factor inputs) ++ [merged])
            (fids.take (indexOfCompacted factor inputs) ++ [merged]) fuel
            hfl2 hlen2 (by omega)

theorem StorageCompact_terminates_C6_witness :
    (∃ st2 merged,
      Merge [.primitive ⟨100, []⟩, .primitive ⟨50, []⟩]
        (([0, 1] : List ID).drop
          (indexOfCompacted 10 [⟨100, []⟩, ⟨50, []⟩])) =
        some (st2, merged) ∧
      flattenF st2 1
        (([0, 1] : List ID).take
          (indexOfCompacted 10 [⟨100, []⟩, ⟨50, []⟩]) ++ [merged]) =
        some (([0, 1] : List ID).take
          (indexOfCompacted 10 [⟨100, []⟩, ⟨50, []⟩]) ++ [merged]) ∧
      ((([0, 1] : List ID)).take
          (indexOfCompacted 10 [⟨100, []⟩, ⟨50, []⟩]) ++ [merged]).length =
        indexOfCompacted 10 [⟨100, []⟩, ⟨50, []⟩] + 1 ∧
      indexOfCompacted 10 [⟨100, []⟩, ⟨50, []⟩] + 1 <
        ([0, 1] : List ID).length) ∧
    StorageCompact 10 1 3 [.primitive ⟨100, []⟩, .primitive ⟨50, []⟩]
      [0, 1] ≠ .error .fuelOut := by
  constructor
  · exact (StorageCompact_terminates_C6 10 1
      [.primitive ⟨100, []⟩, .primitive ⟨50, []⟩] [0, 1] [0, 1] rfl).1
      [⟨100, []⟩, ⟨50, []⟩] rfl (by decide)
  · exact (StorageCompact_terminates_C6 10 1
      [.primitive ⟨100, []⟩, .primitive ⟨50, []⟩] [0, 1] [0, 1] rfl).2
      3 (by decide)

/-- A key range produced by the sharder (Go `index.PathRange`): optional
lower (inclusive) and upper (exclusive) bounds, `none` meaning unbounded. -/
structure PathRange where
  lower : Option FsPath
  upper : Option FsPath
deriving DecidableEq, Repr

/-- Membership of a path in a range. -/
def inRange (r : PathRange) (p : FsPath) : Bool :=
  (match r.lower with
   | none => true
   | some lo => decide (lo ≤ p)) &&
  (match r.upper with
   | none => true
   | some up => decide (p < up))

/-- Go `CompactionTask`: the smallest unit of compaction — the full input
reference list scoped to one path range. -/
structure CompactionTask where
  Inputs : List ID
  pathRange : PathRange
deriving DecidableEq, Repr

/-- The Go `Storage.Shard` capability, abstract: produce the ordered path
ranges for a reference list (spec §4.4); `none` models a shard error. -/
abbrev ShardFn := Store → List ID → Option (List PathRange)

/-- The Go `CompactionBatchWorker` capability, abstract: execute a batch
of tasks, returning the (possibly extended) store and one result per
task; `none` models a worker error. -/
abbrev WorkerFn := Store → List CompactionTask → Option (Store × List ID)

/-- Modelled from the spec: `Storage.Concat` (spec §6) combines the
disjoint, key-sorted per-shard results into one new reference without
re-sorting; at the reference level it creates a composite over them. -/
def Concat (st : Store) (ids : List ID) : Store × ID :=
  (st ++ [.composite ids], st.length)

/-- Go `DistributedCompactor.shardedCompact`: build one task per shard
(each carrying the full input list), dispatch the batch to the worker,
check the result count, and concatenate the per-shard results. -/
def shardedCompact (shard : ShardFn) (worker : WorkerFn) (st : Store)
    (ids : List ID) : Except Err (Store × ID) :=
  match shard st ids with
  | none => .error .ioErr
  | some ranges =>
    let tasks := ranges.map (fun r => CompactionTask.mk ids r)
    match worker st tasks with
    | none => .error .ioErr
    | some (st2, results) =>
      if results.length = tasks.length then .ok (Concat st2 results)
      else .error .countMismatch

/-- Result of the child-size selection loop in
`DistributedCompactor.Compact`: it can run out of fuel (the model's
rendering of an infinite loop), hit Go's division-by-zero panic, or
finish with a child group size. -/
inductive ChildSizeResult where
  | fuelOut
  | divPanic
  | done (cs : Int)
deriving DecidableEq, Repr

/-- The Go loop `for len(ids)/childSize > maxFanIn { childSize *=
maxFanIn }`, with Go's truncating integer division and its
divide-by-zero panic made explicit. -/
def childSizeLoop (maxFanIn n : Int) : Nat → Int → ChildSizeResult
  | 0, _ => .fuelOut
  | fuel + 1, cs =>
    if cs = 0 then .divPanic
    else if maxFanIn < Int.tdiv n cs then
      childSizeLoop maxFanIn n fuel (cs * maxFanIn)
    else .done cs

/-- The grouping loop of `DistributedCompactor.Compact`: contiguous
groups of `cs` elements (the last may be shorter).  Structured with fuel
`l.length`, which suffices exactly when `cs ≥ 1` (for `cs = 0` the Go
loop would not advance; the model cuts off instead). -/
def chunksAux (cs : Nat) : Nat → List ID → List (List ID)
  | 0, _ => []
  | _, [] => []
  | fuel + 1, id :: rest =>
    ((id :: rest).take cs) :: chunksAux cs fuel ((id :: rest).drop cs)

/-- Contiguous groups of `cs` inputs, as produced by the grouping loop. -/
def chunks (cs : Nat) (l : List ID) : List (List ID) :=
  chunksAux cs l.length l

/-- Run a compaction step over each group left to right, threading the
store and collecting one result reference per group. -/
def runGroups (f : Store → List ID → Except Err (Store × ID)) :
    Store → List (List ID) → Except Err (Store × List ID)
  | st, [] => .ok (st, [])
  | st, g :: gs =>
    match f st g with
    | .error e => .error e
    | .ok (st2, r) =>
      match runGroups f st2 gs with
      | .error e => .error e
      | .ok (st3, rs) => .ok (st3, r :: rs)

/-- Go `DistributedCompactor.Compact`: below the fan-in bound, do a
sharded compaction; above it, pick the child group size with the
`childSizeLoop`, compact each contiguous group recursively, then recurse
on the per-group results. -/
def DistributedCompactor.Compact (maxFanIn : Int) (shard : ShardFn)
    (worker : WorkerFn) : Nat → Store → List ID → Except Err (Store × ID)
  | 0, _, _ => .error .fuelOut
  | fuel + 1, st, ids =>
    if (ids.length : Int) ≤ maxFanIn then
      shardedCompact shard worker st ids
    else
      match childSizeLoop maxFanIn (ids.length : Int)
        (ids.length + 1) maxFanIn with
      | .fuelOut => .error .fuelOut
      | .divPanic => .error .divPanic
      | .done cs =>
        if cs ≤ 0 then .error .divPanic
        else
          match runGroups
            (fun st2 g => DistributedCompactor.Compact maxFanIn shard
              worker fuel st2 g) st (chunks cs.toNat ids) with
          | .error e => .error e
          | .ok (st2, results) =>
            DistributedCompactor.Compact maxFanIn shard worker fuel
              st2 results

/-- C7: if the worker returns a result list whose length differs from the
task count, `shardedCompact` fails with the distinct count-mismatch
error; `Concat` is never reached and no reference is created (the store
from the worker is dropped unchanged by the failing call). -/
theorem shardedCompact_count_mismatch_C7 (shard : ShardFn)
    (worker : WorkerFn) (st st2 : Store) (ids : List ID)
    (ranges : List PathRange) (results : List ID)
    (hsh : shard st ids = some ranges)
    (hw : worker st (ranges.map (fun r => CompactionTask.mk ids r)) =
      some (st2, results))
    (hne : results.length ≠ ranges.length) :
    shardedCompact shard worker st ids = .error .countMismatch := by
  unfold shardedCompact
  rw [hsh]
  simp only [hw]
  rw [if_neg (by simpa using hne)]

theorem shardedCompact_count_mismatch_C7_witness :
    shardedCompact
      (fun _ _ => some [⟨none, some 3⟩, ⟨some 3, none⟩])
      (fun st _ => some (st, [7]))
      [.primitive ⟨1, []⟩] [0] = .error .countMismatch :=
  shardedCompact_count_mismatch_C7
    (fun _ _ => some [⟨none, some 3⟩, ⟨some 3, none⟩])
    (fun st _ => some (st, [7]))
    [.primitive ⟨1, []⟩] [.primitive ⟨1, []⟩] [0]
    [⟨none, some 3⟩, ⟨some 3, none⟩] [7] rfl rfl (by decide)

theorem chunksAux_nil (cs fuel : Nat) : chunksAux cs fuel [] = [] := by
  cases fuel <;> rfl

theorem chunksAux_length (cs : Nat) (hcs : 1 ≤ cs) : ∀ (fuel : Nat)
    (l : List ID), l.length ≤ fuel →
    (chunksAux cs fuel l).length = (l.length + cs - 1) / cs := by
  intro fuel
  induction fuel with
  | zero =>
    intro l hl
    have hnil : l = [] := List.length_eq_zero.mp (by omega)
    subst hnil
    rw [chunksAux_nil]
    simp [Nat.div_eq_of_lt (by omega : cs - 1 < cs)]
  | succ fuel ih =>
    intro l hl
    cases l with
    | nil =>
      rw [chunksAux_nil]
      simp [Nat.div_eq_of_lt (by omega : cs - 1 < cs)]
    | cons id rest =>
      have hlen1 : 1 ≤ (id :: rest).length := by simp
      have hdrop : ((id :: rest).drop cs).length ≤ fuel := by
        rw [List.length_drop, List.length_cons]
        rw [List.length_cons] at hl
        omega
      have hstep : (chunksAux cs (fuel + 1) (id :: rest)).length =
          1 + (chunksAux cs fuel ((id :: rest).drop cs)).length := by
        rw [chunksAux]
        simp [Nat.add_comm]
      rw [hstep, ih _ hdrop]
      rw [List.length_drop]
      have hrw : (id :: rest).length + cs - 1 = ((id :: rest).length - 1) + cs := by
        omega
      rw [hrw, Nat.add_div_right _ (by omega : 0 < cs)]
      by_cases hc : cs ≤ (id :: rest).length
      · have : (id :: rest).length - cs + cs - 1 = (id :: rest).length - 1 := by
          omega
        rw [this]
        omega
      · have h1 : (id :: rest).length - cs = 0 := by omega
        rw [h1]
        rw [Nat.div_eq_of_lt (by omega : 0 + cs - 1 < cs)]
        rw [Nat.div_eq_of_lt (by omega : (id :: rest).length - 1 < cs)]
  
theorem chunksAux_join (cs : Nat) (hcs : 1 ≤ cs) : ∀ (fuel : Nat)
    (l : List ID), l.length ≤ fuel → (chunksAux cs fuel l).flatten = l := by
  intro fuel
  induction fuel with
  | zero =>
    intro l hl
    have hnil : l = [] := List.length_eq_zero.mp (by omega)
    subst hnil
    rw [chunksAux_nil]
    rfl
  | succ fuel ih =>
    intro l hl
    cases l with
    | nil => rw [chunksAux_nil]; rfl
    | cons id rest =>
      have hdrop : ((id :: rest).drop cs).length ≤ fuel := by
        rw [List.length_drop, List.length_cons]
        rw [List.length_cons] at hl
        omega
      rw [chunksAux]
      simp only [List.flatten_cons]
      rw [ih _ hdrop, List.take_append_drop]

theorem chunks_length (cs : Nat) (hcs : 1 ≤ cs) (l : List ID) :
    (chunks cs l).length = (l.length + cs - 1) / cs :=
  chunksAux_length cs hcs l.length l (Nat.le_refl _)

theorem chunks_join (cs : Nat) (hcs : 1 ≤ cs) (l : List ID) :
    (chunks cs l).flatten = l :=
  chunksAux_join cs hcs l.length l (Nat.le_refl _)

theorem childSizeLoop_done_power (m n : Int) : ∀ (fuel j : Nat) (cs' : Int),
    childSizeLoop m n fuel (m ^ j) = .done cs' →
    (∃ k, j ≤ k ∧ cs' = m ^ k ∧
      ∀ i, j ≤ i → i < k → m < Int.tdiv n (m ^ i)) ∧
    Int.tdiv n cs' ≤ m := by
  intro fuel
  induction fuel with
  | zero => intro j cs' h; cases h
  | succ fuel ih =>
    intro j cs' h
    unfold childSizeLoop at h
    by_cases h0 : (m : Int) ^ j = 0
    · rw [if_pos h0] at h; cases h
    rw [if_neg h0] at h
    by_cases hdiv : m < Int.tdiv n (m ^ j)
    · rw [if_pos hdiv] at h
      rw [← pow_succ] at h
      obtain ⟨⟨k, hk1, hk2, hk3⟩, hd⟩ := ih (j + 1) cs' h
      refine ⟨⟨k, by omega, hk2, ?_⟩, hd⟩
      intro i hi1 hi2
      by_cases hij : i = j
      · subst hij; exact hdiv
      · exact hk3 i (by omega) hi2
    · rw [if_neg hdiv] at h
      have : cs' = m ^ j := by
        have := h
        simp [ChildSizeResult.done.injEq] at this
        omega
      subst this
      exact ⟨⟨j, Nat.le_refl j, rfl, fun i h1 h2 => by omega⟩, by omega⟩

/-- C3 counterexample: with `maxFanIn = 2` and five inputs the child-size
loop keeps `childSize = 2` (since `5 / 2 = 2` is not greater than 2), but
splitting five ids into contiguous groups of two yields three groups —
more than `maxFanIn` — so the recursion receives a list longer than
`maxFanIn` (the smallest power of 2 giving at most 2 groups would have
been 4). -/
theorem DCompact_grouping_cex_C3 :
    childSizeLoop 2 5 6 2 = .done 2 ∧
    chunks 2 [0, 1, 2, 3, 4] = [[0, 1], [2, 3], [4]] ∧
    (chunks 2 [0, 1, 2, 3, 4]).length = 3 ∧ ¬ (3 ≤ 2) ∧
    (chunks 4 [0, 1, 2, 3, 4]).length = 2 ∧ (4 : Int) = 2 ^ 2 := by
  refine ⟨by decide, by decide, by decide, by decide, by decide, by decide⟩

/-- C3 (amended): for `len(ids) > maxFanIn >= 2` the loop chooses as
child-group size the smallest power of `maxFanIn` whose *floor* quotient
`len(ids) / childSize` is at most `maxFanIn` — every smaller power of
`maxFanIn` still has floor quotient greater than `maxFanIn`; the number
of contiguous groups is the ceiling `(len + cs - 1) / cs`, which can
exceed `maxFanIn` by one, so the list of group results the recursion
receives has length at most `maxFanIn + 1` (not `maxFanIn`). -/
theorem DCompact_grouping_C3 (m : Int) (hm : 2 ≤ m) (ids : List ID)
    (hlen : m < (ids.length : Int)) (fuel : Nat) (cs : Int)
    (hcs : childSizeLoop m (ids.length : Int) fuel m = .done cs) :
    (∃ k, 1 ≤ k ∧ cs = m ^ k) ∧
    Int.tdiv (ids.length : Int) cs ≤ m ∧
    (∀ cs', (∃ i, 1 ≤ i ∧ cs' = m ^ i) → cs' < cs →
      m < Int.tdiv (ids.length : Int) cs') ∧
    2 ≤ cs ∧
    (chunks cs.toNat ids).length = (ids.length + cs.toNat - 1) / cs.toNat ∧
    ((chunks cs.toNat ids).length : Int) ≤ m + 1 := by
  have hcs1 : childSizeLoop m (ids.length : Int) fuel (m ^ 1) = .done cs := by
    rw [pow_one]; exact hcs
  obtain ⟨⟨k, hk1, hk2, hk3⟩, hdiv⟩ :=
    childSizeLoop_done_power m (ids.length : Int) fuel 1 cs hcs1
  have hmin : ∀ cs', (∃ i, 1 ≤ i ∧ cs' = m ^ i) → cs' < cs →
      m < Int.tdiv (ids.length : Int) cs' := by
    intro cs' hex hlt
    obtain ⟨i, hi1, hi2⟩ := hex
    have hik : i < k := by
      by_contra hik
      have hge : m ^ k ≤ m ^ i := pow_le_pow_right₀ (by omega) (by omega)
      rw [hi2, hk2] at hlt
      omega
    rw [hi2]
    exact hk3 i hi1 hik
  have hcs2 : 2 ≤ cs := by
    rw [hk2]
    calc (2 : Int) ≤ m := hm
    _ = m ^ 1 := (pow_one m).symm
    _ ≤ m ^ k := pow_le_pow_right₀ (by omega) (by omega)
  have hcsnat : (cs.toNat : Int) = cs := Int.toNat_of_nonneg (by omega)
  have hcsnat2 : 2 ≤ cs.toNat := by omega
  have hformula := chunks_length cs.toNat (by omega) ids
  refine ⟨⟨k, hk1, hk2⟩, hdiv, hmin, hcs2, hformula, ?_⟩
  have hd2 : (ids.length + cs.toNat - 1) / cs.toNat ≤
      ids.length / cs.toNat + 1 := by
    calc (ids.length + cs.toNat - 1) / cs.toNat
        ≤ (ids.length + cs.toNat) / cs.toNat :=
          Nat.div_le_div_right (by omega)
    _ = ids.length / cs.toNat + 1 := Nat.add_div_right _ (by omega)
  have hcast : ((ids.length / cs.toNat : Nat) : Int) =
      Int.tdiv (ids.length : Int) cs := by
    rw [Int.ofNat_tdiv, hcsnat]
  rw [hformula]
  have := hd2
  omega

theorem DCompact_grouping_C3_witness :
    (∃ k, 1 ≤ k ∧ (4 : Int) = 2 ^ k) ∧
    Int.tdiv (([0, 1, 2, 3, 4, 5, 6, 7, 8] : List ID).length : Int) 4 ≤ 2 ∧
    (∀ cs', (∃ i, 1 ≤ i ∧ cs' = (2 : Int) ^ i) → cs' < 4 →
      (2 : Int) < Int.tdiv
        (([0, 1, 2, 3, 4, 5, 6, 7, 8] : List ID).length : Int) cs') ∧
    (2 : Int) ≤ 4 ∧
    (chunks (4 : Int).toNat [0, 1, 2, 3, 4, 5, 6, 7, 8]).length =
      (([0, 1, 2, 3, 4, 5, 6, 7, 8] : List ID).length + (4 : Int).toNat - 1) /
        (4 : Int).toNat ∧
    (((chunks (4 : Int).toNat [0, 1, 2, 3, 4, 5, 6, 7, 8]).length : Nat) :
      Int) ≤ 2 + 1 :=
  DCompact_grouping_C3 2 (by omega) [0, 1, 2, 3, 4, 5, 6, 7, 8] (by decide)
    10 4 (by decide)

/-- The concatenated path entries of a reference list's flattened
primitive layers, in layer order (earlier layers take precedence on
duplicate paths under `List.lookup`). -/
def entriesOf (st : Store) (f : Nat) (ids : List ID) :
    Option (List (FsPath × Nat)) :=
  match flattenedLayers st f ids with
  | none => none
  | some layers => some ((layers.map Primitive.entries).flatten)

/-- A reference list resolves (with some flatten depth) to the given
concatenated entry list. -/
def Resolves (st : Store) (ids : List ID) (E : List (FsPath × Nat)) : Prop :=
  ∃ f, entriesOf st f ids = some E

theorem flattenF_det (st : Store) (f1 f2 : Nat) (ids o1 o2 : List ID)
    (h1 : flattenF st f1 ids = some o1) (h2 : flattenF st f2 ids = some o2) :
    o1 = o2 := by
  have m1 := flattenF_fuel_mono st f1 (f1 + f2) ids o1 (by omega) h1
  have m2 := flattenF_fuel_mono st f2 (f1 + f2) ids o2 (by omega) h2
  rw [m1] at m2
  exact Option.some.inj m2

theorem entriesOf_mono (st : Store) (f1 f2 : Nat) (ids : List ID)
    (E : List (FsPath × Nat)) (hf : f1 ≤ f2)
    (h : entriesOf st f1 ids = some E) : entriesOf st f2 ids = some E := by
  unfold entriesOf flattenedLayers at h ⊢
  rcases hfl : flattenF st f1 ids with _ | fids
  · rw [hfl] at h; cases h
  rw [hfl] at h
  rw [flattenF_fuel_mono st f1 f2 ids fids hf hfl]
  exact h

theorem Resolves_det (st : Store) (ids : List ID)
    (E E' : List (FsPath × Nat)) (h1 : Resolves st ids E)
    (h2 : Resolves st ids E') : E = E' := by
  obtain ⟨f1, h1⟩ := h1
  obtain ⟨f2, h2⟩ := h2
  have m1 := entriesOf_mono st f1 (f1 + f2) ids E (by omega) h1
  have m2 := entriesOf_mono st f2 (f1 + f2) ids E' (by omega) h2
  rw [m1] at m2
  exact Option.some.inj m2

theorem Resolves_append_store (st ext : Store) (ids : List ID)
    (E : List (FsPath × Nat)) (h : Resolves st ids E) :
    Resolves (st ++ ext) ids E := by
  obtain ⟨f, h⟩ := h
  refine ⟨f, ?_⟩
  unfold entriesOf flattenedLayers at h ⊢
  rcases hfl : flattenF st f ids with _ | fids
  · simp [hfl] at h
  simp only [hfl] at h
  rcases hb : getPrimitiveBatch st fids with _ | layers
  · simp [hb] at h
  simp only [hb] at h
  simp only [flattenF_append_store st ext f ids fids hfl,
    getPrimitiveBatch_append_store st ext fids layers hb]
  exact h

theorem Resolves_nil (st : Store) : Resolves st [] [] :=
  ⟨0, rfl⟩

theorem Resolves_append (st : Store) (l1 l2 : List ID)
    (E1 E2 : List (FsPath × Nat)) (h1 : Resolves st l1 E1)
    (h2 : Resolves st l2 E2) : Resolves st (l1 ++ l2) (E1 ++ E2) := by
  obtain ⟨f1, h1⟩ := h1
  obtain ⟨f2, h2⟩ := h2
  have m1 := entriesOf_mono st f1 (f1 + f2) l1 E1 (by omega) h1
  have m2 := entriesOf_mono st f2 (f1 + f2) l2 E2 (by omega) h2
  refine ⟨f1 + f2, ?_⟩
  unfold entriesOf flattenedLayers at m1 m2 ⊢
  rcases hf1 : flattenF st (f1 + f2) l1 with _ | o1
  · simp [hf1] at m1
  simp only [hf1] at m1
  rcases hf2 : flattenF st (f1 + f2) l2 with _ | o2
  · simp [hf2] at m2
  simp only [hf2] at m2
  rcases hb1 : getPrimitiveBatch st o1 with _ | p1
  · simp [hb1] at m1
  simp only [hb1] at m1
  rcases hb2 : getPrimitiveBatch st o2 with _ | p2
  · simp [hb2] at m2
  simp only [hb2] at m2
  simp only [flattenF_combine st (f1 + f2) l1 l2 o1 o2 hf1 hf2,
    getPrimitiveBatch_combine st o1 o2 p1 p2 hb1 hb2]
  simp only [Option.some.injEq] at m1 m2 ⊢
  rw [← m1, ← m2]
  simp

theorem Resolves_split (st : Store) (l1 l2 : List ID)
    (E : List (FsPath × Nat)) (h : Resolves st (l1 ++ l2) E) :
    ∃ E1 E2, E = E1 ++ E2 ∧ Resolves st l1 E1 ∧ Resolves st l2 E2 := by
  obtain ⟨f, h⟩ := h
  unfold entriesOf flattenedLayers at h
  rcases hfl : flattenF st f (l1 ++ l2) with _ | fids
  · simp [hfl] at h
  simp only [hfl] at h
  rcases hb : getPrimitiveBatch st fids with _ | layers
  · simp [hb] at h
  simp only [hb] at h
  obtain ⟨o1, o2, h1, h2, h3⟩ := flattenF_append_ids st f l1 l2 fids hfl
  subst h3
  obtain ⟨p1, p2, hb1, hb2, hb3⟩ :=
    getPrimitiveBatch_append_ids st o1 o2 layers hb
  subst hb3
  refine ⟨(p1.map Primitive.entries).flatten,
    (p2.map Primitive.entries).flatten, ?_, ⟨f, ?_⟩, ⟨f, ?_⟩⟩
  · rw [← Option.some.inj h]
    simp
  · unfold entriesOf flattenedLayers
    simp only [h1, hb1]
  · unfold entriesOf flattenedLayers
    simp only [h2, hb2]

theorem Resolves_composite (st : Store) (rid : ID) (ids : List ID)
    (E : List (FsPath × Nat)) (hmd : getMd st rid = some (.composite ids))
    (h : Resolves st ids E) : Resolves st [rid] E := by
  obtain ⟨f, h⟩ := h
  refine ⟨f + 1, ?_⟩
  unfold entriesOf flattenedLayers at h ⊢
  rcases hfl : flattenF st f ids with _ | fids
  · simp [hfl] at h
  simp only [hfl] at h
  rw [flattenF_cons_comp st f rid [] ids hmd]
  simp only [hfl, flattenF_nil]
  simpa using h

theorem lookup_append (p : FsPath) (l1 l2 : List (FsPath × Nat)) :
    (l1 ++ l2).lookup p = (l1.lookup p).or (l2.lookup p) := by
  induction l1 with
  | nil => simp [List.lookup]
  | cons e rest ih =>
    rcases e with ⟨a, b⟩
    by_cases hap : p = a
    · subst hap
      simp [List.lookup, Option.or]
    · have hb : (p == a) = false := by simp [hap]
      simp [List.lookup, hb, ih]

theorem lookup_filter_keep (p : FsPath) (q : FsPath × Nat → Bool)
    (E : List (FsPath × Nat)) (hq : ∀ v, q (p, v) = true) :
    (E.filter q).lookup p = E.lookup p := by
  induction E with
  | nil => rfl
  | cons e rest ih =>
    rcases e with ⟨a, b⟩
    by_cases hap : p = a
    · subst hap
      rw [List.filter_cons, hq b]
      simp [List.lookup, ih]
    · have hb : (p == a) = false := by simp [hap]
      rw [List.filter_cons]
      by_cases hq2 : q (a, b) = true
      · simp only [hq2, if_pos]
        simp [List.lookup, hb, ih]
      · simp only [hq2]
        simp [List.lookup, hb, ih]

theorem lookup_filter_drop (p : FsPath) (q : FsPath × Nat → Bool)
    (E : List (FsPath × Nat)) (hq : ∀ v, q (p, v) = false) :
    (E.filter q).lookup p = none := by
  induction E with
  | nil => rfl
  | cons e rest ih =>
    rcases e with ⟨a, b⟩
    by_cases hap : p = a
    · subst hap
      rw [List.filter_cons, hq b]
      simpa using ih
    · have hb : (p == a) = false := by simp [hap]
      rw [List.filter_cons]
      by_cases hq2 : q (a, b) = true
      · simp only [hq2, if_pos]
        simp [List.lookup, hb, ih]
      · simp only [hq2]
        simpa using ih

theorem lookup_shards_none (p : FsPath) (E : List (FsPath × Nat)) :
    ∀ (ranges : List PathRange), (∀ r ∈ ranges, inRange r p = false) →
    ((ranges.map (fun r => E.filter (fun e => inRange r e.1))).flatten).lookup
      p = none := by
  intro ranges
  induction ranges with
  | nil => intro h; rfl
  | cons r rest ih =>
    intro h
    simp only [List.map_cons, List.flatten_cons]
    rw [lookup_append]
    rw [lookup_filter_drop p _ E (fun v => h r (by simp))]
    rw [ih (fun r' hr' => h r' (by simp [hr']))]
    rfl

theorem lookup_shards (p : FsPath) (E : List (FsPath × Nat)) :
    ∀ (ranges : List PathRange),
    ranges.countP (fun r => inRange r p) = 1 →
    ((ranges.map (fun r => E.filter (fun e => inRange r e.1))).flatten).lookup
      p = E.lookup p := by
  intro ranges
  induction ranges with
  | nil => intro h; simp [List.countP_nil] at h
  | cons r rest ih =>
    intro h
    rw [List.countP_cons] at h
    simp only [List.map_cons, List.flatten_cons]
    rw [lookup_append]
    by_cases hr : inRange r p = true
    · have hrest : rest.countP (fun r => inRange r p) = 0 := by
        simp only [hr, if_true] at h
        omega
      rw [lookup_filter_keep p _ E (fun v => hr)]
      rw [lookup_shards_none p E rest
        (fun r' hr' => by
          simpa using List.countP_eq_zero.mp hrest r' hr')]
      rcases E.lookup p with _ | v <;> rfl
    · have hrest : rest.countP (fun r => inRange r p) = 1 := by
        simp only [hr, if_false] at h
        simpa using h
      rw [lookup_filter_drop p _ E
        (fun v => by simpa using hr)]
      rw [ih hrest]
      rfl

/-- Contract of the `Shard` capability (spec §4.4, §5): the produced
path ranges are disjoint and cover the whole key space — every path lies
in exactly one range. -/
def ShardContract (shard : ShardFn) : Prop :=
  ∀ st ids ranges, shard st ids = some ranges →
    ∀ p : FsPath, ranges.countP (fun r => inRange r p) = 1

/-- Contract of the batch worker (spec §4.5, §6): it only appends new
filesets to the store, returns one result per task in task order, and
each result resolves to its task's inputs' entries restricted to the
task's path range. -/
def WorkerContract (worker : WorkerFn) : Prop :=
  ∀ st tasks st2 rs, worker st tasks = some (st2, rs) →
    (∃ ext, st2 = st ++ ext) ∧
    List.Forall₂ (fun t r => ∃ E, Resolves st t.Inputs E ∧
      Resolves st2 [r] (E.filter (fun e => inRange t.pathRange e.1)))
      tasks rs

theorem Resolves_join_forall2 (st : Store) :
    ∀ (rs : List ID) (Es : List (List (FsPath × Nat))),
    List.Forall₂ (fun r E => Resolves st [r] E) rs Es →
    Resolves st rs Es.flatten := by
  intro rs
  induction rs with
  | nil =>
    intro Es h
    cases h
    exact Resolves_nil st
  | cons r rest ih =>
    intro Es h
    cases h with
    | cons hh ht =>
      have := Resolves_append st [r] rest _ _ hh (ih _ ht)
      simpa using this

theorem Resolves_split_list (st : Store) :
    ∀ (gs : List (List ID)) (E : List (FsPath × Nat)),
    Resolves st gs.flatten E →
    ∃ Es, List.Forall₂ (Resolves st) gs Es ∧ E = Es.flatten := by
  intro gs
  induction gs with
  | nil =>
    intro E h
    have hE : E = [] := Resolves_det st [] E [] h (Resolves_nil st)
    exact ⟨[], List.Forall₂.nil, by simp [hE]⟩
  | cons g rest ih =>
    intro E h
    rw [List.flatten_cons] at h
    obtain ⟨E1, E2, hE, h1, h2⟩ := Resolves_split st g rest.flatten E h
    obtain ⟨Es, hf, hflat⟩ := ih E2 h2
    exact ⟨E1 :: Es, List.Forall₂.cons h1 hf, by simp [hE, hflat]⟩

theorem lookup_flatten_congr (p : FsPath) :
    ∀ (As Bs : List (List (FsPath × Nat))),
    List.Forall₂ (fun A B => A.lookup p = B.lookup p) As Bs →
    As.flatten.lookup p = Bs.flatten.lookup p := by
  intro As
  induction As with
  | nil => intro Bs h; cases h; rfl
  | cons A rest ih =>
    intro Bs h
    cases h with
    | cons hh ht =>
      simp only [List.flatten_cons]
      rw [lookup_append, lookup_append, hh, ih _ ht]

theorem forall2_of_indexed {α β : Type} (P : α → β → Prop) (da : α)
    (db : β) : ∀ (xs : List α) (ys : List β), xs.length = ys.length →
    (∀ j, j < xs.length → P (xs.getD j da) (ys.getD j db)) →
    List.Forall₂ P xs ys := by
  intro xs
  induction xs with
  | nil =>
    intro ys hl h
    cases ys with
    | nil => exact .nil
    | cons y ys' => simp at hl
  | cons x rest ih =>
    intro ys hl h
    cases ys with
    | nil => simp at hl
    | cons y ys' =>
      refine .cons ?_ (ih ys' (by simpa using hl) ?_)
      · simpa using h 0 (by simp)
      · intro j hj
        have := h (j + 1) (by simpa using Nat.succ_lt_succ hj)
        simpa [List.getD_cons_succ] using this

theorem StorageCompact_entries (factor : Int) (ffuel : Nat) :
    ∀ (fuel : Nat) (st : Store) (ids : List ID) (st' : Store) (rid : ID)
    (E : List (FsPath × Nat)),
    StorageCompact factor ffuel fuel st ids = .ok (st', rid) →
    Resolves st ids E →
    (∃ ext, st' = st ++ ext) ∧ Resolves st' [rid] E := by
  intro fuel
  induction fuel with
  | zero => intro st ids st' rid E h hE; cases h
  | succ fuel ih =>
    intro st ids st' rid E h hE
    rcases hfl : flattenF st ffuel ids with _ | fids
    · rw [StorageCompact_flatten_err factor ffuel fuel st ids hfl] at h
      cases h
    rcases hb : getPrimitiveBatch st fids with _ | inputs
    · rw [StorageCompact_batch_err factor ffuel fuel st ids fids hfl hb] at h
      cases h
    have hEeq : E = (inputs.map Primitive.entries).flatten := by
      refine Resolves_det st ids E _ hE ⟨ffuel, ?_⟩
      unfold entriesOf flattenedLayers
      simp only [hfl, hb]
    by_cases hc : indexOfCompacted factor inputs = inputs.length
    · rw [StorageCompact_compose factor ffuel fuel st ids fids inputs
        hfl hb hc] at h
      have hok : Compose st fids = (st', rid) := by simpa using h
      have hst : st' = st ++ [Metadata.composite fids] := by
        have := congrArg Prod.fst hok
        simpa [Compose] using this.symm
      have hrid : rid = st.length := by
        have := congrArg Prod.snd hok
        simpa [Compose] using this.symm
      subst hst
      subst hrid
      refine ⟨⟨[Metadata.composite fids], rfl⟩, ?_⟩
      apply Resolves_composite _ st.length fids E
        (getMd_append_new st (.composite fids))
      refine ⟨0, ?_⟩
      unfold entriesOf flattenedLayers
      have hflp : flattenF (st ++ [Metadata.composite fids]) 0 fids =
          some fids := by
        apply flattenF_of_primitives
        intro id hid
        obtain ⟨p, hp⟩ := getPrimitiveBatch_mem st fids inputs hb id hid
        exact ⟨p, by
          rw [getMd_append st _ id (getMd_lt_length st id _ hp)]
          exact hp⟩
      simp only [hflp,
        getPrimitiveBatch_append_store st [Metadata.composite fids] fids
          inputs hb]
      rw [hEeq]
    · have hb2 : getPrimitiveBatch st
          (fids.take (indexOfCompacted factor inputs) ++
            fids.drop (indexOfCompacted factor inputs)) = some inputs := by
        rw [List.take_append_drop]; exact hb
      obtain ⟨p1, p2, hp1, hp2, hps⟩ :=
        getPrimitiveBatch_append_ids st _ _ inputs hb2
      have hform : Merge st (fids.drop (indexOfCompacted factor inputs)) =
          some (st ++ [.primitive ⟨(p2.map Primitive.SizeBytes).sum,
            (p2.map Primitive.entries).flatten⟩], st.length) := by
        simp [Merge, hp2]
      rw [StorageCompact_merge_step factor ffuel fuel st
        (st ++ [.primitive ⟨(p2.map Primitive.SizeBytes).sum,
          (p2.map Primitive.entries).flatten⟩]) ids fids inputs st.length
        hfl hb hc hform] at h
      have hres : Resolves
          (st ++ [.primitive ⟨(p2.map Primitive.SizeBytes).sum,
            (p2.map Primitive.entries).flatten⟩])
          (fids.take (indexOfCompacted factor inputs) ++ [st.length]) E := by
      -- E1 from the untouched prefix, E2 from the merged layer
        have hr1 : Resolves
            (st ++ [.primitive ⟨(p2.map Primitive.SizeBytes).sum,
              (p2.map Primitive.entries).flatten⟩])
            (fids.take (indexOfCompacted factor inputs))
            ((p1.map Primitive.entries).flatten) := by
          refine ⟨0, ?_⟩
          unfold entriesOf flattenedLayers
          have hflp : flattenF (st ++ [Metadata.primitive
              ⟨(p2.map Primitive.SizeBytes).sum,
                (p2.map Primitive.entries).flatten⟩]) 0
              (fids.take (indexOfCompacted factor inputs)) =
              some (fids.take (indexOfCompacted factor inputs)) := by
            apply flattenF_of_primitives
            intro id hid
            obtain ⟨p, hp⟩ := getPrimitiveBatch_mem st _ p1 hp1 id hid
            exact ⟨p, by
              rw [getMd_append st _ id (getMd_lt_length st id _ hp)]
              exact hp⟩
          simp only [hflp, getPrimitiveBatch_append_store st _ _ p1 hp1]
        have hr2 : Resolves
            (st ++ [.primitive ⟨(p2.map Primitive.SizeBytes).sum,
              (p2.map Primitive.entries).flatten⟩])
            [st.length] ((p2.map Primitive.entries).flatten) := by
          refine ⟨0, ?_⟩
          unfold entriesOf flattenedLayers
          have hmd := getMd_append_new st (.primitive
            ⟨(p2.map Primitive.SizeBytes).sum,
              (p2.map Primitive.entries).flatten⟩)
          have hflp : flattenF (st ++ [Metadata.primitive
              ⟨(p2.map Primitive.SizeBytes).sum,
                (p2.map Primitive.entries).flatten⟩]) 0 [st.length] =
              some [st.length] := by
            apply flattenF_of_primitives
            intro id hid
            simp at hid
            subst hid
            exact ⟨_, hmd⟩
          simp only [hflp]
          simp [getPrimitiveBatch, getPrimitive, hmd]
        have := Resolves_append _ _ _ _ _ hr1 hr2
        have hEsplit : E = (p1.map Primitive.entries).flatten ++
            (p2.map Primitive.entries).flatten := by
          rw [hEeq, hps]
          simp
        rw [hEsplit]
        exact this
      obtain ⟨⟨ext2, hext2⟩, hres'⟩ := ih _ _ _ _ _ h hres
      refine ⟨⟨[Metadata.primitive ⟨(p2.map Primitive.SizeBytes).sum,
        (p2.map Primitive.entries).flatten⟩] ++ ext2, ?_⟩, hres'⟩
      rw [hext2]
      simp

theorem DCompact_base_eq (m : Int) (shard : ShardFn) (worker : WorkerFn)
    (fuel : Nat) (st : Store) (ids : List ID)
    (hlen : (ids.length : Int) ≤ m) :
    DistributedCompactor.Compact m shard worker (fuel + 1) st ids =
      shardedCompact shard worker st ids := by
  simp [DistributedCompactor.Compact, hlen]

theorem DCompact_rec_eq (m : Int) (shard : ShardFn) (worker : WorkerFn)
    (fuel : Nat) (st : Store) (ids : List ID) (cs : Int)
    (hlen : ¬ (ids.length : Int) ≤ m)
    (hcs : childSizeLoop m (ids.length : Int) (ids.length + 1) m = .done cs)
    (hpos : ¬ cs ≤ 0) :
    DistributedCompactor.Compact m shard worker (fuel + 1) st ids =
      match runGroups (fun st2 g => DistributedCompactor.Compact m shard
        worker fuel st2 g) st (chunks cs.toNat ids) with
      | .error e => .error e
      | .ok (st2, results) =>
        DistributedCompactor.Compact m shard worker fuel st2 results := by
  simp [DistributedCompactor.Compact, hlen, hcs, hpos]

theorem DCompact_entries (m : Int) (shard : ShardFn) (worker : WorkerFn)
    (hsh : ShardContract shard) (hw : WorkerContract worker) :
    ∀ (fuel : Nat) (st : Store) (ids : List ID) (st' : Store) (rid : ID)
    (E : List (FsPath × Nat)),
    DistributedCompactor.Compact m shard worker fuel st ids =
      .ok (st', rid) →
    Resolves st ids E →
    (∃ ext, st' = st ++ ext) ∧
    ∃ E', Resolves st' [rid] E' ∧ ∀ p, E'.lookup p = E.lookup p := by
  intro fuel
  induction fuel with
  | zero => intro st ids st' rid E h hE; cases h
  | succ fuel ih =>
    intro st ids st' rid E h hE
    by_cases hlen : (ids.length : Int) ≤ m
    · rw [DCompact_base_eq m shard worker fuel st ids hlen] at h
      unfold shardedCompact at h
      rcases hsh0 : shard st ids with _ | ranges
      · simp [hsh0] at h
      simp only [hsh0] at h
      rcases hwk : worker st (ranges.map fun r => CompactionTask.mk ids r)
        with _ | res
      · simp [hwk] at h
      rcases res with ⟨st2, results⟩
      simp only [hwk] at h
      by_cases hcount : results.length =
          (ranges.map fun r => CompactionTask.mk ids r).length
      · rw [if_pos hcount] at h
        have hok : Concat st2 results = (st', rid) := by simpa using h
        have hst : st' = st2 ++ [Metadata.composite results] := by
          have := congrArg Prod.fst hok
          simpa [Concat] using this.symm
        have hrid : rid = st2.length := by
          have := congrArg Prod.snd hok
          simpa [Concat] using this.symm
        obtain ⟨⟨ext, hext⟩, hf2⟩ := hw st _ st2 results hwk
        have hf3 : List.Forall₂ (fun rg r =>
            Resolves st2 [r] (E.filter (fun e => inRange rg e.1)))
            ranges results := by
          have hmap := List.forall₂_map_left_iff.mp hf2
          refine hmap.imp ?_
          intro rg r hex
          obtain ⟨E0, hE0, hr⟩ := hex
          have hdet : E0 = E := Resolves_det st ids E0 E hE0 hE
          rw [hdet] at hr
          exact hr
        have hf4 : List.Forall₂ (fun r F => Resolves st2 [r] F) results
            (ranges.map fun rg => E.filter (fun e => inRange rg e.1)) := by
          rw [List.forall₂_map_right_iff]
          exact hf3.flip
        have hjoin : Resolves st2 results
            ((ranges.map fun rg =>
              E.filter (fun e => inRange rg e.1)).flatten) :=
          Resolves_join_forall2 st2 results _ hf4
        subst hst
        subst hrid
        refine ⟨⟨ext ++ [Metadata.composite results], by
          rw [hext]; simp⟩, ?_⟩
        refine ⟨(ranges.map fun rg =>
          E.filter (fun e => inRange rg e.1)).flatten, ?_, ?_⟩
        · exact Resolves_composite _ st2.length results _
            (getMd_append_new st2 (.composite results))
            (Resolves_append_store st2 [Metadata.composite results]
              results _ hjoin)
        · intro p
          exact lookup_shards p E ranges (hsh st ids ranges hsh0 p)
      · rw [if_neg hcount] at h
        cases h
    · rcases hcs : childSizeLoop m (ids.length : Int) (ids.length + 1) m
        with _ | _ | cs
      · have hout : DistributedCompactor.Compact m shard worker (fuel + 1)
            st ids = .error .fuelOut := by
          simp [DistributedCompactor.Compact, hlen, hcs]
        rw [hout] at h; cases h
      · have hout : DistributedCompactor.Compact m shard worker (fuel + 1)
            st ids = .error .divPanic := by
          simp [DistributedCompactor.Compact, hlen, hcs]
        rw [hout] at h; cases h
      by_cases hpos : cs ≤ 0
      · have hout : DistributedCompactor.Compact m shard worker (fuel + 1)
            st ids = .error .divPanic := by
          simp [DistributedCompactor.Compact, hlen, hcs, hpos]
        rw [hout] at h; cases h
      rw [DCompact_rec_eq m shard worker fuel st ids cs hlen hcs hpos] at h
      have hrun : ∀ (gs : List (List ID)) (st0 st1 : Store) (rs : List ID)
          (Es0 : List (List (FsPath × Nat))),
          runGroups (fun s g => DistributedCompactor.Compact m shard worker
            fuel s g) st0 gs = .ok (st1, rs) →
          List.Forall₂ (Resolves st0) gs Es0 →
          (∃ ext, st1 = st0 ++ ext) ∧
          ∃ Es', List.Forall₂ (fun r F => Resolves st1 [r] F) rs Es' ∧
            List.Forall₂ (fun A B => ∀ p, A.lookup p = B.lookup p)
              Es' Es0 := by
        intro gs
        induction gs with
        | nil =>
          intro st0 st1 rs Es0 hr hfa
          cases hfa
          have hr2 : st0 = st1 ∧ ([] : List ID) = rs := by
            simpa [runGroups] using hr
          obtain ⟨h1, h2⟩ := hr2
          subst h1
          subst h2
          exact ⟨⟨[], by simp⟩, [], .nil, .nil⟩
        | cons g gs' ihg =>
          intro st0 st1 rs Es0 hr hfa
          cases Es0 with
          | nil => cases hfa
          | cons E0 Es0tail =>
            cases hfa with
            | cons hhead htail =>
              rcases hd : DistributedCompactor.Compact m shard worker fuel
                st0 g with e | res2
              · unfold runGroups at hr
                simp [hd] at hr
              rcases res2 with ⟨st2, r⟩
              unfold runGroups at hr
              simp only [hd] at hr
              rcases hrg : runGroups (fun s g => DistributedCompactor.Compact
                m shard worker fuel s g) st2 gs' with e | res3
              · simp [hrg] at hr
              rcases res3 with ⟨st3, rs'⟩
              simp only [hrg] at hr
              have hr2 : st3 = st1 ∧ r :: rs' = rs := by simpa using hr
              obtain ⟨h1, h2⟩ := hr2
              subst h1
              subst h2
              obtain ⟨⟨ext1, hext1⟩, E'h, hresh, hlookh⟩ :=
                ih st0 g st2 r _ hd hhead
              have htail2 : List.Forall₂ (Resolves st2) gs' Es0tail := by
                refine htail.imp ?_
                intro g0 E0 hres0
                rw [hext1]
                exact Resolves_append_store st0 ext1 g0 E0 hres0
              obtain ⟨⟨ext2, hext2⟩, Es', hf', hlook'⟩ :=
                ihg st2 st3 rs' _ hrg htail2
              have hresh3 : Resolves st3 [r] E'h := by
                rw [hext2]
                exact Resolves_append_store st2 ext2 [r] E'h hresh
              refine ⟨⟨ext1 ++ ext2, by rw [hext2, hext1]; simp⟩,
                E'h :: Es', .cons hresh3 hf', .cons hlookh hlook'⟩
      have hcs1 : 1 ≤ cs.toNat := by omega
      have hjoinids : (chunks cs.toNat ids).flatten = ids :=
        chunks_join cs.toNat hcs1 ids
      obtain ⟨Es, hfa, hEflat⟩ := Resolves_split_list st (chunks cs.toNat ids)
        E (by rw [hjoinids]; exact hE)
      rcases hrg0 : runGroups (fun s g => DistributedCompactor.Compact m
        shard worker fuel s g) st (chunks cs.toNat ids) with e | res0
      · rw [hrg0] at h; cases h
      rcases res0 with ⟨st2, results⟩
      rw [hrg0] at h
      obtain ⟨⟨ext1, hext1⟩, Es', hf', hlook'⟩ :=
        hrun (chunks cs.toNat ids) st st2 results Es hrg0 hfa
      have hjoin2 : Resolves st2 results Es'.flatten :=
        Resolves_join_forall2 st2 results Es' hf'
      obtain ⟨⟨ext2, hext2⟩, E'', hres'', hlook''⟩ :=
        ih st2 results st' rid Es'.flatten h hjoin2
      refine ⟨⟨ext1 ++ ext2, by rw [hext2, hext1]; simp⟩, E'', hres'', ?_⟩
      intro p
      rw [hlook'' p]
      rw [lookup_flatten_congr p Es' Es (hlook'.imp (fun _ _ hAB => hAB p))]
      rw [hEflat]

/-- C8 (amended): given the Shard and worker contracts, a successful
`DistributedCompactor.Compact` and a successful sequential
`Storage.Compact` over the same inputs produce filesets with the same
path-to-entry mapping over their flattened primitive layers (first-match
lookup over the concatenated entries); the flattened layer lists
themselves generally differ. -/
theorem DCompact_equiv_sequential_C8 (m factor : Int) (shard : ShardFn)
    (worker : WorkerFn) (hsh : ShardContract shard)
    (hw : WorkerContract worker) (fuel1 ffuel fuel2 : Nat) (st : Store)
    (ids : List ID) (st1 st2 : Store) (r1 r2 : ID)
    (E : List (FsPath × Nat))
    (h1 : DistributedCompactor.Compact m shard worker fuel1 st ids =
      .ok (st1, r1))
    (h2 : StorageCompact factor ffuel fuel2 st ids = .ok (st2, r2))
    (hE : Resolves st ids E) :
    ∃ E1 E2, Resolves st1 [r1] E1 ∧ Resolves st2 [r2] E2 ∧
      ∀ p, E1.lookup p = E2.lookup p := by
  obtain ⟨_, E1, hres1, hlook1⟩ :=
    DCompact_entries m shard worker hsh hw fuel1 st ids st1 r1 E h1 hE
  obtain ⟨_, hres2⟩ :=
    StorageCompact_entries factor ffuel fuel2 st ids st2 r2 E h2 hE
  exact ⟨E1, E, hres1, hres2, fun p => hlook1 p⟩

/-- Modelled from the spec: the per-task step of a reference batch worker
(spec §4.5) — resolve the task's inputs and keep the entries inside the
task's path range. -/
def workerSpecAux (st : Store) : List CompactionTask →
    Option (List (List (FsPath × Nat)))
  | [] => some []
  | t :: ts =>
    match entriesOf st (st.length + 1) t.Inputs, workerSpecAux st ts with
    | some E, some Fs =>
      some (E.filter (fun e => inRange t.pathRange e.1) :: Fs)
    | _, _ => none

/-- Modelled from the spec: a reference batch worker — for each task it
stores one new primitive holding the task inputs' entries restricted to
the task's range, returning the new references in task order. -/
def workerSpec : WorkerFn := fun st tasks =>
  match workerSpecAux st tasks with
  | none => none
  | some Fs =>
    some (st ++ Fs.map (fun F => .primitive ⟨(F.length : Int), F⟩),
      (List.range Fs.length).map (fun j => st.length + j))

/-- A trivial sharder producing one full-key-space range. -/
def shardOne : ShardFn := fun _ _ => some [⟨none, none⟩]

/-- A sharder splitting the key space at path 3. -/
def shardPair : ShardFn := fun _ _ => some [⟨none, some 3⟩, ⟨some 3, none⟩]

theorem shardOne_contract : ShardContract shardOne := by
  intro st ids ranges h p
  have hr : ranges = [⟨none, none⟩] := (Option.some.inj h).symm
  subst hr
  simp [List.countP_cons, List.countP_nil, inRange]

theorem shardPair_contract : ShardContract shardPair := by
  intro st ids ranges h p
  have hr : ranges = [⟨none, some 3⟩, ⟨some 3, none⟩] :=
    (Option.some.inj h).symm
  subst hr
  by_cases hp : p < 3
  · have h1 : ¬ 3 ≤ p := Nat.not_le.mpr hp
    simp [List.countP_cons, List.countP_nil, inRange, hp, h1]
  · have h1 : 3 ≤ p := Nat.le_of_not_lt hp
    simp [List.countP_cons, List.countP_nil, inRange, hp, h1]

theorem workerSpecAux_length (st : Store) : ∀ (tasks : List CompactionTask)
    (Fs : List (List (FsPath × Nat))), workerSpecAux st tasks = some Fs →
    Fs.length = tasks.length := by
  intro tasks
  induction tasks with
  | nil =>
    intro Fs h
    simp [workerSpecAux] at h
    simp [← h]
  | cons t ts ih =>
    intro Fs h
    unfold workerSpecAux at h
    rcases he : entriesOf st (st.length + 1) t.Inputs with _ | Et
    · simp [he] at h
    rcases hr : workerSpecAux st ts with _ | Fs'
    · simp [he, hr] at h
    simp [he, hr] at h
    simp [← h, ih Fs' hr]

theorem workerSpecAux_spec (st : Store) (dt : CompactionTask) :
    ∀ (tasks : List CompactionTask) (Fs : List (List (FsPath × Nat))),
    workerSpecAux st tasks = some Fs →
    ∀ j, j < tasks.length → ∃ Ej,
      entriesOf st (st.length + 1) (tasks.getD j dt).Inputs = some Ej ∧
      Fs.getD j [] =
        Ej.filter (fun e => inRange (tasks.getD j dt).pathRange e.1) := by
  intro tasks
  induction tasks with
  | nil => intro Fs h j hj; simp at hj
  | cons t ts ih =>
    intro Fs h j hj
    unfold workerSpecAux at h
    rcases he : entriesOf st (st.length + 1) t.Inputs with _ | Et
    · simp [he] at h
    rcases hr : workerSpecAux st ts with _ | Fs'
    · simp [he, hr] at h
    simp [he, hr] at h
    cases j with
    | zero =>
      refine ⟨Et, by simpa using he, ?_⟩
      simp [← h]
    | succ j' =>
      have := ih Fs' hr j' (by
        rw [List.length_cons] at hj
        omega)
      simpa [← h, List.getD_cons_succ] using this

theorem workerSpec_contract : WorkerContract workerSpec := by
  intro st tasks st2 rs hwk
  unfold workerSpec at hwk
  rcases ha : workerSpecAux st tasks with _ | Fs
  · simp [ha] at hwk
  simp only [ha] at hwk
  have hst2 : st2 = st ++ Fs.map (fun F =>
      Metadata.primitive ⟨(F.length : Int), F⟩) := by
    have := congrArg Prod.fst (Option.some.inj hwk)
    simpa using this.symm
  have hrs : rs = (List.range Fs.length).map (fun j => st.length + j) := by
    have := congrArg Prod.snd (Option.some.inj hwk)
    simpa using this.symm
  have hlen := workerSpecAux_length st tasks Fs ha
  refine ⟨⟨_, hst2⟩, ?_⟩
  apply forall2_of_indexed _ (CompactionTask.mk [] ⟨none, none⟩) 0
  · rw [hrs]
    simp [hlen]
  · intro j hj
    obtain ⟨Ej, hEj, hFj⟩ :=
      workerSpecAux_spec st (CompactionTask.mk [] ⟨none, none⟩) tasks Fs
        ha j hj
    refine ⟨Ej, ⟨st.length + 1, hEj⟩, ?_⟩
    have hjF : j < Fs.length := by omega
    have hrsj : rs.getD j 0 = st.length + j := by
      rw [hrs]
      rw [List.getD_eq_getElem _ 0 (by simpa using hjF)]
      simp
    have hmd : getMd st2 (st.length + j) = some (.primitive
        ⟨((Fs.getD j []).length : Int), Fs.getD j []⟩) := by
      rw [hst2]
      unfold getMd
      rw [List.get?_eq_getElem?]
      rw [List.getElem?_append_right (by omega)]
      have : st.length + j - st.length = j := by omega
      rw [this]
      rw [List.getElem?_map]
      rw [List.getElem?_eq_getElem hjF]
      rw [List.getD_eq_getElem _ [] hjF]
      rfl
    rw [hrsj, ← hFj]
    refine ⟨0, ?_⟩
    unfold entriesOf flattenedLayers
    have hflp : flattenF st2 0 [st.length + j] = some [st.length + j] := by
      apply flattenF_of_primitives
      intro id hid
      simp at hid
      subst hid
      exact ⟨_, hmd⟩
    simp only [hflp]
    simp [getPrimitiveBatch, getPrimitive, hmd]

/-- C8 counterexample: with contract-satisfying capabilities (two shards
split at path 3, the reference worker), the distributed and the
sequential compactor of the same two layers succeed, but the flattened
primitive LAYER lists of their results differ: the distributed result
keeps two per-shard primitives while the sequential result holds one
merged primitive — the per-shard primitive is not among the sequential
result's layers.  Only the path-to-entry mapping coincides. -/
theorem DCompact_equiv_sequential_cex_C8 :
    ShardContract shardPair ∧ WorkerContract workerSpec ∧
    DistributedCompactor.Compact 2 shardPair workerSpec 1
      [.primitive ⟨1, [(0, 7)]⟩, .primitive ⟨1, [(5, 9)]⟩] [0, 1] =
      .ok ([.primitive ⟨1, [(0, 7)]⟩, .primitive ⟨1, [(5, 9)]⟩,
        .primitive ⟨1, [(0, 7)]⟩, .primitive ⟨1, [(5, 9)]⟩,
        .composite [2, 3]], 4) ∧
    StorageCompact 10 2 3
      [.primitive ⟨1, [(0, 7)]⟩, .primitive ⟨1, [(5, 9)]⟩] [0, 1] =
      .ok ([.primitive ⟨1, [(0, 7)]⟩, .primitive ⟨1, [(5, 9)]⟩,
        .primitive ⟨2, [(0, 7), (5, 9)]⟩, .composite [2]], 3) ∧
    flattenedLayers [.primitive ⟨1, [(0, 7)]⟩, .primitive ⟨1, [(5, 9)]⟩,
      .primitive ⟨1, [(0, 7)]⟩, .primitive ⟨1, [(5, 9)]⟩,
      .composite [2, 3]] 2 [4] =
      some [⟨1, [(0, 7)]⟩, ⟨1, [(5, 9)]⟩] ∧
    flattenedLayers [.primitive ⟨1, [(0, 7)]⟩, .primitive ⟨1, [(5, 9)]⟩,
      .primitive ⟨2, [(0, 7), (5, 9)]⟩, .composite [2]] 2 [3] =
      some [⟨2, [(0, 7), (5, 9)]⟩] ∧
    (⟨1, [(0, 7)]⟩ : Primitive) ∈
      [(⟨1, [(0, 7)]⟩ : Primitive), ⟨1, [(5, 9)]⟩] ∧
    (⟨1, [(0, 7)]⟩ : Primitive) ∉ [(⟨2, [(0, 7), (5, 9)]⟩ : Primitive)] :=
  ⟨shardPair_contract, workerSpec_contract, rfl, rfl, rfl, rfl,
    by decide, by decide⟩

theorem DCompact_equiv_sequential_C8_witness :
    ∃ E1 E2,
      Resolves [.primitive ⟨1, [(0, 7)]⟩, .primitive ⟨1, [(0, 7)]⟩,
        .composite [1]] [2] E1 ∧
      Resolves [.primitive ⟨1, [(0, 7)]⟩, .composite [0]] [1] E2 ∧
      ∀ p, E1.lookup p = E2.lookup p :=
  DCompact_equiv_sequential_C8 2 10 shardOne workerSpec
    shardOne_contract workerSpec_contract 1 1 1
    [.primitive ⟨1, [(0, 7)]⟩] [0]
    [.primitive ⟨1, [(0, 7)]⟩, .primitive ⟨1, [(0, 7)]⟩, .composite [1]]
    [.primitive ⟨1, [(0, 7)]⟩, .composite [0]] 2 1 [(0, 7)]
    rfl rfl ⟨1, rfl⟩
